import Mathlib

/-!
Verification development for the mcp-client-slackbot repository.

Texts are modelled as `List Char`.  The Python functions of the repository
are shallowly embedded as total Lean functions; raised exceptions are
modelled with `Option`/`Except`, and the side effects of the Slack handler
(outbound messages, LLM requests, tool invocations, conversation-store
writes) are made explicit in returned records.
-/

namespace MCPBot

/-- Characters accepted by Python's `str.strip()` and by the regex class
whitespace (ASCII fragment): space, tab, newline, carriage return,
vertical tab, form feed. -/
def pyIsSpace (c : Char) : Bool :=
  c = ' ' || c = '\t' || c = '\n' || c = '\r' || c = '\x0b' || c = '\x0c'

/-- Model of Python `str.strip()`: drop whitespace from both ends. -/
def pyStrip (s : List Char) : List Char :=
  ((s.dropWhile pyIsSpace).reverse.dropWhile pyIsSpace).reverse

/-- The tool-call marker literal `[TOOL]` used by `ToolParser`. -/
def marker : List Char := "[TOOL]".toList

/-- Model of Python `pat in s` (substring containment). -/
def hasSub (pat : List Char) : List Char → Bool
  | [] => pat.isPrefixOf []
  | c :: rest => pat.isPrefixOf (c :: rest) || hasSub pat rest

/-- Number of positions of `s` at which the marker `[TOOL]` occurs. -/
def countMarkers : List Char → Nat
  | [] => 0
  | c :: rest => (if marker.isPrefixOf (c :: rest) then 1 else 0) + countMarkers rest

/-- Length of the maximal whitespace prefix of `s` (the greedy extent of
a leading regex whitespace star). -/
def wsRun (s : List Char) : Nat := (s.takeWhile pyIsSpace).length

/-- Length of the maximal prefix of `s` made of characters other than a
newline (the greedy extent of the tool-name group of the pattern). -/
def nonNlRun (s : List Char) : Nat := (s.takeWhile (fun c => c != '\n')).length

/-- Backtracking search: try `f n`, `f (n-1)`, ..., `f 0` and return the
first hit.  This is the preference order of a greedy star in a
backtracking regex engine: longest split first. -/
def searchDown {α : Type} (f : Nat → Option α) : Nat → Option α
  | 0 => f 0
  | n + 1 =>
    match f (n + 1) with
    | some x => some x
    | none => searchDown f n

/-- Index of the first closing brace in `s`, if any. -/
def findBraceIdx : List Char → Option Nat
  | [] => none
  | c :: rest => if c = '\x7d' then some 0 else (findBraceIdx rest).map (· + 1)

/-- The tail of the tool-call pattern after the mandatory newline: a
whitespace star, an opening brace, then a lazy dot-star and a closing
brace.  Because no whitespace character is an opening brace, only the
maximal whitespace skip can put the opening brace next, so this part of
the backtracking search is deterministic; the lazy star together with
the single literal closing brace capture up to the first closing brace.
Returns the captured group (brace to brace inclusive) and the number of
characters of `u` consumed. -/
def matchBracedGroup (u : List Char) : Option (List Char × Nat) :=
  let i := wsRun u
  match u.drop i with
  | '\x7b' :: w =>
    match findBraceIdx w with
    | some p => some ('\x7b' :: w.take (p + 1), i + 1 + (p + 1))
    | none => none
  | _ => none

/-- Model of matching the regex `\[TOOL\]\s*([^\n]+)\s*\n\s*(\{.*?\})`
(DOTALL) just after the literal `[TOOL]`: the remaining pattern is a
whitespace star, the one-or-more non-newline name group, a whitespace
star, a literal newline, and then `matchBracedGroup`.  The nested
`searchDown` calls realise the backtracking engine's preference order
(each greedy star longest first).  On success, returns the name group,
the braced group, and the number of characters of `t` consumed. -/
def matchAfterTool (t : List Char) : Option (List Char × List Char × Nat) :=
  searchDown (fun i1 =>
    let t1 := t.drop i1
    searchDown (fun j =>
      if j = 0 then none else
      let t2 := t1.drop j
      searchDown (fun i3 =>
        match t2.drop i3 with
        | '\n' :: t4 =>
          match matchBracedGroup t4 with
          | some g => some (t1.take j, g.1, i1 + j + i3 + 1 + g.2)
          | none => none
        | _ => none) (wsRun t2)) (nonNlRun t1)) (wsRun t)

/-- Fuel-indexed scan for all non-overlapping matches of the tool-call
pattern, left to right, as `re.findall` does: at each position, if the
text starts with the marker and the rest of the pattern matches, record
the two groups and resume after the match; otherwise advance one
character.  One unit of fuel is spent per position examined; since every
step consumes at least one character, `fuel = s.length` is exact. -/
def scanAux : Nat → List Char → List (List Char × List Char)
  | 0, _ => []
  | fuel + 1, s =>
    match s with
    | [] => []
    | _ :: rest =>
      if marker.isPrefixOf s then
        match matchAfterTool (s.drop 6) with
        | some (g1, g2, k) => (g1, g2) :: scanAux fuel (s.drop (6 + k))
        | none => scanAux fuel rest
      else scanAux fuel rest

/-- All matches of the tool-call pattern in `s` (model of
`re.findall(pattern, response, re.DOTALL)` in `ToolParser`). -/
def scanToolBlocks (s : List Char) : List (List Char × List Char) :=
  scanAux s.length s

/-- JSON values, as produced by `json.loads` on the fragment this
development models: null, booleans, integer numbers, strings, arrays and
objects (an object is kept as its ordered member list). -/
inductive Json : Type
  | null : Json
  | bool : Bool → Json
  | num : Int → Json
  | str : List Char → Json
  | arr : List Json → Json
  | obj : List (List Char × Json) → Json

/-- Characters `json.loads` skips between tokens: space, tab, newline,
carriage return. -/
def jsonIsWs (c : Char) : Bool :=
  c = ' ' || c = '\t' || c = '\n' || c = '\r'

/-- JSON string escapes handled by the model: quote, backslash, slash,
backspace, form feed, newline, carriage return, tab.  The `\uXXXX`
escape is outside the modelled fragment (the model rejects it). -/
def escapeChar : Char → Option Char
  | '"' => some '"'
  | '\\' => some '\\'
  | '/' => some '/'
  | 'b' => some '\x08'
  | 'f' => some '\x0c'
  | 'n' => some '\n'
  | 'r' => some '\r'
  | 't' => some '\t'
  | _ => none

/-- Parse the body of a JSON string after the opening quote, handling
escapes and rejecting raw control characters (strict mode of
`json.loads`).  Returns the decoded characters and the rest of the
input after the closing quote. -/
def parseStringBody : List Char → Option (List Char × List Char)
  | [] => none
  | '"' :: rest => some ([], rest)
  | '\\' :: e :: rest =>
    match escapeChar e with
    | some c => (parseStringBody rest).map (fun r => (c :: r.1, r.2))
    | none => none
  | c :: rest =>
    if c.toNat < 32 then none
    else (parseStringBody rest).map (fun r => (c :: r.1, r.2))

/-- Decimal value of a digit character. -/
def charDigitVal (c : Char) : Nat := c.toNat - 48

/-- Parse a JSON number.  The modelled fragment is the integers: a
number continued by a fraction or exponent is rejected (Python would
read a float there), and a multi-digit number with a leading zero is
rejected, as `json.loads` fails on every input containing one. -/
def parseNumber (s : List Char) : Option (Json × List Char) :=
  let neg : Bool := s.head? == some '-'
  let s1 := if neg then s.tail else s
  let ds := s1.takeWhile Char.isDigit
  let rest := s1.drop ds.length
  let okNext : Bool := match rest.head? with
    | none => true
    | some c => !(c = '.' || c = 'e' || c = 'E')
  if ds = [] then none
  else if 1 < ds.length ∧ ds.head? = some '0' then none
  else if okNext then
    let v : Nat := ds.foldl (fun a c => a * 10 + charDigitVal c) 0
    some (Json.num (if neg then -(v : Int) else (v : Int)), rest)
  else none

mutual

/-- Parse one JSON value at the head of the input (no leading-whitespace
skip, as in Python's scanner), dispatching on the first character. -/
def parseValue : Nat → List Char → Option (Json × List Char)
  | 0, _ => none
  | fuel + 1, s =>
    match s with
    | [] => none
    | '"' :: rest => (parseStringBody rest).map (fun r => (Json.str r.1, r.2))
    | '\x7b' :: rest => parseObjectBody fuel rest
    | '[' :: rest => parseArrayBody fuel rest
    | 't' :: 'r' :: 'u' :: 'e' :: rest => some (Json.bool true, rest)
    | 'f' :: 'a' :: 'l' :: 's' :: 'e' :: rest => some (Json.bool false, rest)
    | 'n' :: 'u' :: 'l' :: 'l' :: rest => some (Json.null, rest)
    | c :: r => if c = '-' || c.isDigit then parseNumber (c :: r) else none

/-- Parse a JSON object after its opening brace: either an immediate
closing brace, or a first `"key": value` member followed by
`parseMembersRest`. -/
def parseObjectBody : Nat → List Char → Option (Json × List Char)
  | 0, _ => none
  | fuel + 1, s =>
    match s.dropWhile jsonIsWs with
    | '\x7d' :: rest => some (Json.obj [], rest)
    | '"' :: rest =>
      match parseStringBody rest with
      | some (k, r1) =>
        match r1.dropWhile jsonIsWs with
        | ':' :: r2 =>
          match parseValue fuel (r2.dropWhile jsonIsWs) with
          | some (v, r3) =>
            match parseMembersRest fuel r3 with
            | some (ms, r4) => some (Json.obj ((k, v) :: ms), r4)
            | none => none
          | none => none
        | _ => none
      | none => none
    | _ => none

/-- Parse the members of a JSON object after a complete member: a comma
and a further `"key": value`, or the closing brace. -/
def parseMembersRest : Nat → List Char → Option (List (List Char × Json) × List Char)
  | 0, _ => none
  | fuel + 1, s =>
    match s.dropWhile jsonIsWs with
    | '\x7d' :: rest => some ([], rest)
    | ',' :: rest =>
      match rest.dropWhile jsonIsWs with
      | '"' :: r0 =>
        match parseStringBody r0 with
        | some (k, r1) =>
          match r1.dropWhile jsonIsWs with
          | ':' :: r2 =>
            match parseValue fuel (r2.dropWhile jsonIsWs) with
            | some (v, r3) =>
              match parseMembersRest fuel r3 with
              | some (ms, r4) => some ((k, v) :: ms, r4)
              | none => none
            | none => none
          | _ => none
        | none => none
      | _ => none
    | _ => none

/-- Parse a JSON array after its opening bracket. -/
def parseArrayBody : Nat → List Char → Option (Json × List Char)
  | 0, _ => none
  | fuel + 1, s =>
    match s.dropWhile jsonIsWs with
    | ']' :: rest => some (Json.arr [], rest)
    | _ =>
      match parseValue fuel (s.dropWhile jsonIsWs) with
      | some (v, r1) =>
        match parseElemsRest fuel r1 with
        | some (vs, r2) => some (Json.arr (v :: vs), r2)
        | none => none
      | none => none

/-- Parse the elements of a JSON array after a complete element. -/
def parseElemsRest : Nat → List Char → Option (List Json × List Char)
  | 0, _ => none
  | fuel + 1, s =>
    match s.dropWhile jsonIsWs with
    | ']' :: rest => some ([], rest)
    | ',' :: rest =>
      match parseValue fuel (rest.dropWhile jsonIsWs) with
      | some (v, r1) =>
        match parseElemsRest fuel r1 with
        | some (vs, r2) => some (v :: vs, r2)
        | none => none
      | none => none
    | _ => none

end

/-- Model of `json.loads` on the fragment above: skip whitespace, parse
one value, skip whitespace, and require the input to be exhausted
(otherwise Python raises the extra-data error). -/
def jsonLoads (s : List Char) : Option Json :=
  match parseValue (s.length + 1) (s.dropWhile jsonIsWs) with
  | some (v, rest) => if rest.dropWhile jsonIsWs = [] then some v else none
  | none => none

/-- A parsed tool invocation: the dictionaries
`{"tool_name": ..., "arguments": ...}` built by
`ToolParser.extract_tool_calls`. -/
structure ToolCall : Type where
  tool_name : List Char
  arguments : Json

/-- Model of `ToolParser.extract_tool_calls`: return `[]` if the marker
is absent; otherwise run the pattern scan and keep, in order, the
matches whose captured argument text parses as JSON, stripping the
captured tool name.  A failed JSON parse only drops its own match
(Python catches the decode error and continues). -/
def extract_tool_calls (response : List Char) : List ToolCall :=
  if hasSub marker response then
    (scanToolBlocks response).filterMap (fun m =>
      match jsonLoads m.2 with
      | some args => some ⟨pyStrip m.1, args⟩
      | none => none)
  else []

/-- The text before the first marker occurrence: `parts[0]` of
`response.split("[TOOL]")`. -/
def beforeMarker : List Char → List Char
  | [] => []
  | c :: rest => if marker.isPrefixOf (c :: rest) then [] else c :: beforeMarker rest

/-- Model of `ToolParser.split_response`: with no marker present the
response itself and no calls; otherwise the stripped text before the
first marker and the extracted calls. -/
def split_response (response : List Char) : List Char × List ToolCall :=
  if hasSub marker response then
    (pyStrip (beforeMarker response), extract_tool_calls response)
  else (response, [])

/-- Decimal digit character for a digit value. -/
def digitChar10 (d : Nat) : Char := Char.ofNat (48 + d)

/-- Decimal rendering of a natural number, most significant digit
first. -/
def renderNat (n : Nat) : List Char :=
  if n = 0 then ['0'] else ((Nat.digits 10 n).map digitChar10).reverse

/-- Decimal rendering of an integer. -/
def renderInt (n : Int) : List Char :=
  if n < 0 then '-' :: renderNat (-n).toNat else renderNat n.toNat

mutual

/-- Rendering of a JSON value in the textual form `json.dumps` produces
with its default separators; strings are rendered without escaping,
which agrees with `json.dumps` exactly on strings that contain no
character needing an escape (the fragment the theorems use). -/
def renderJson : Json → List Char
  | .null => "null".toList
  | .bool true => "true".toList
  | .bool false => "false".toList
  | .num n => renderInt n
  | .str s => '"' :: (s ++ ['"'])
  | .arr xs => '[' :: (renderElems xs ++ [']'])
  | .obj ms => '\x7b' :: (renderMembers ms ++ ['\x7d'])

/-- Render array elements separated by a comma and a space. -/
def renderElems : List Json → List Char
  | [] => []
  | [x] => renderJson x
  | x :: y :: t => renderJson x ++ ',' :: ' ' :: renderElems (y :: t)

/-- Render object members separated by a comma and a space, each as the
quoted key, a colon, a space, and the value. -/
def renderMembers : List (List Char × Json) → List Char
  | [] => []
  | kv :: rest =>
    ('"' :: (kv.1 ++ '"' :: ':' :: ' ' :: renderJson kv.2)) ++ renderMembersTail rest

/-- Render the members after the first one, each preceded by a comma
and a space. -/
def renderMembersTail : List (List Char × Json) → List Char
  | [] => []
  | kv :: rest =>
    ',' :: ' ' :: (('"' :: (kv.1 ++ '"' :: ':' :: ' ' :: renderJson kv.2)) ++ renderMembersTail rest)

end

/-- Characters allowed in the JSON strings of a well-formed flat
argument object: printable, not a quote, not a backslash, not a closing
brace (a closing brace inside a string would end the lazily captured
group early), and not an opening bracket (so the serialized text
contains no spurious marker occurrence). -/
def goodStrChar (c : Char) : Bool :=
  !(c.toNat < 32) && c != '"' && c != '\\' && c != '\x7d' && c != '['

/-- Primitive JSON values a flat argument object may carry: null,
booleans, integers, and strings of `goodStrChar` characters. -/
def goodPrim : Json → Bool
  | .null => true
  | .bool _ => true
  | .num _ => true
  | .str s => s.all goodStrChar
  | .arr _ => false
  | .obj _ => false

/-- Pairwise distinctness of the keys of a member list. -/
def distinctKeys : List (List Char × Json) → Bool
  | [] => true
  | kv :: rest => !(rest.any (fun kv2 => kv2.1 == kv.1)) && distinctKeys rest

/-- A well-formed flat argument object: an object whose keys are made of
`goodStrChar` characters and pairwise distinct (so Python's dict agrees
with the ordered member list) and whose values are primitive. -/
def goodArgs : Json → Bool
  | .obj ms =>
    ms.all (fun kv => kv.1.all goodStrChar && goodPrim kv.2) && distinctKeys ms
  | _ => false

/-- Characters allowed in a well-formed tool name: not whitespace (so
the name survives the strip) and not an opening bracket (so it holds no
spurious marker occurrence). -/
def goodNameChar (c : Char) : Bool := !pyIsSpace c && c != '['

/-- A well-formed invocation: a nonempty name of `goodNameChar`
characters and a well-formed flat argument object. -/
def goodCall (c : ToolCall) : Bool :=
  !c.tool_name.isEmpty && c.tool_name.all goodNameChar && goodArgs c.arguments

/-- A marker block: the marker, a space, a name, a newline, an argument
text, a newline. -/
def toolBlock (nm argsText : List Char) : List Char :=
  marker ++ ' ' :: (nm ++ '\n' :: (argsText ++ ['\n']))

/-- Modelled from the spec: serialization of one invocation into the
marker syntax `[TOOL] <name>`, a newline, and the JSON argument object
(the repository itself has no serializer; this is the syntax the
orchestration loop instructs the model to emit).  A trailing newline
separates it from any following text. -/
def serializeCall (c : ToolCall) : List Char :=
  toolBlock c.tool_name (renderJson c.arguments)

/-- Modelled from the spec: serialization of a list of invocations, one
marker block after the other. -/
def serializeCalls (cs : List ToolCall) : List Char :=
  (cs.map serializeCall).flatten

/-- A stored conversation message: the dict
`{"role": ..., "content": ...}` with an optional `"metadata"` key. -/
structure ConvMessage : Type where
  role : List Char
  content : List Char
  metadata : Option Json

/-- Build a plain role/content message (no metadata key). -/
def mkMsg (role content : List Char) : ConvMessage := ⟨role, content, none⟩

/-- Python truthiness of a JSON value (used by the `if metadata:` test
of `ConversationManager.add_message`). -/
def jsonTruthy : Json → Bool
  | .null => false
  | .bool b => b
  | .num n => n != 0
  | .str s => !s.isEmpty
  | .arr xs => !xs.isEmpty
  | .obj ms => !ms.isEmpty

/-- The state of a `ConversationManager`: its `conversations` dict, an
insertion-ordered association of conversation ids to message lists (the
inner dict has the single key `"messages"`, collapsed here to the
list). -/
abbrev ConvStore : Type := List (List Char × List ConvMessage)

/-- Model of `ConversationManager.get_or_create_conversation`: look the
id up; on a miss, append a fresh empty conversation.  Returns the new
store together with the message list of the conversation. -/
def get_or_create_conversation (st : ConvStore) (cid : List Char) :
    ConvStore × List ConvMessage :=
  match List.lookup cid st with
  | some ms => (st, ms)
  | none => (st ++ [(cid, [])], [])

/-- Model of `ConversationManager.add_message`: get or create the
conversation, then append the message (with the metadata key only when
the metadata value is truthy). -/
def add_message (st : ConvStore) (cid role content : List Char)
    (metadata : Option Json) : ConvStore :=
  let md := match metadata with
    | some m => if jsonTruthy m then some m else none
    | none => none
  let st1 := (get_or_create_conversation st cid).1
  st1.map (fun e => if e.1 == cid then (e.1, e.2 ++ [(⟨role, content, md⟩ : ConvMessage)]) else e)

/-- Model of the Python slice `xs[-limit:]` for a nonnegative limit:
for a zero limit the whole list (since `-0 = 0`), otherwise the last
`limit` elements. -/
def pySliceLast {α : Type} (limit : Nat) (xs : List α) : List α :=
  if limit = 0 then xs else xs.drop (xs.length - limit)

/-- The settings constant `DEFAULT_CONVERSATION_HISTORY_LIMIT`. -/
def DEFAULT_CONVERSATION_HISTORY_LIMIT : Nat := 5

/-- Model of `ConversationManager.get_messages`: get or create the
conversation (so the read itself can create an entry), then return the
slice `messages[-limit:]`, or `[]` for an empty message list.  Returns
the new store together with the returned messages. -/
def get_messages (st : ConvStore) (cid : List Char) (limit : Nat) :
    ConvStore × List ConvMessage :=
  let r := get_or_create_conversation st cid
  (r.1, match r.2 with
        | [] => []
        | m :: ms => pySliceLast limit (m :: ms))

/-- Modelled from the spec: a Tool Provider handle (the `Server` class
`ToolExecutor` imports is not among the sources).  `listTools` yields
the names of its current catalog or raises, `executeTool` yields a
result of the abstract provider-result type `α` or raises; raising is
modelled with `Except`, the error carrying the exception text. -/
structure ToolProvider (α : Type) : Type where
  listTools : Except (List Char) (List (List Char))
  executeTool : List Char → Json → Except (List Char) α

/-- A tool execution record as built by `ToolExecutor._execute_tools`:
the keys of the result dict, with `arguments` absent (`none`) in the
not-available branch and `error` absent in the success branch. -/
structure ToolResult (α : Type) : Type where
  tool : List Char
  success : Bool
  arguments : Option Json
  error : Option (List Char)
  result : Option α

/-- An invocation of a provider's execute operation: which provider
(by registration index), which tool, which arguments.  The embeddings
of the dispatch code return the list of these events so that theorems
can speak about which providers were invoked. -/
structure ExecEvent : Type where
  server : Nat
  tool : List Char
  arguments : Json

/-- The error text `Tool '<name>' not available`. -/
def notAvailableMsg (nm : List Char) : List Char :=
  "Tool ".toList ++ '\'' :: (nm ++ '\'' :: " not available".toList)

/-- Model of the per-invocation body of `ToolExecutor._execute_tools`:
walk the providers in registration order; skip a provider whose
catalog fetch raises; on the first provider whose catalog contains the
tool name, invoke it (exactly once) and convert a raised exception into
a failed result; if no provider matches, produce the not-available
result without invoking anything. -/
def dispatchFrom {α : Type} (idx : Nat) (tc : ToolCall) :
    List (ToolProvider α) → ToolResult α × List ExecEvent
  | [] => (⟨tc.tool_name, false, none, some (notAvailableMsg tc.tool_name), none⟩, [])
  | srv :: rest =>
    match srv.listTools with
    | .error _ => dispatchFrom (idx + 1) tc rest
    | .ok names =>
      if tc.tool_name ∈ names then
        match srv.executeTool tc.tool_name tc.arguments with
        | .ok r =>
          (⟨tc.tool_name, true, some tc.arguments, none, some r⟩,
            [⟨idx, tc.tool_name, tc.arguments⟩])
        | .error e =>
          (⟨tc.tool_name, false, some tc.arguments, some e, none⟩,
            [⟨idx, tc.tool_name, tc.arguments⟩])
      else dispatchFrom (idx + 1) tc rest

/-- Model of `ToolExecutor._execute_tools`: one result per invocation,
in order, together with all provider-invocation events. -/
def execute_tools {α : Type} (servers : List (ToolProvider α)) :
    List ToolCall → List (ToolResult α) × List ExecEvent
  | [] => ([], [])
  | tc :: rest =>
    let r := dispatchFrom 0 tc servers
    let rs := execute_tools servers rest
    (r.1 :: rs.1, r.2 ++ rs.2)

/-- The iteration cap of `_process_multi_turn_response`. -/
def max_iterations : Nat := 10

/-- Lookup of a key in a JSON object, last duplicate winning as in a
Python dict built by `json.loads`; `none` for a missing key or for a
value that is not an object. -/
def jsonObjGet (j : Json) (key : List Char) : Option Json :=
  match j with
  | .obj ms => ((ms.reverse.find? (fun kv => kv.1 == key)).map (fun kv => kv.2))
  | _ => none

/-- Model of Python `str(value)` on a JSON value inside an f-string: a
string stays itself.  On non-string values Python would print the
`repr`-style form (single quotes, `True`, `None`); those cases are
outside the fragment the theorems exercise and are rendered here as
JSON text. -/
def pyStrOfJson : Json → List Char
  | .str s => s
  | j => renderJson j

/-- Model of `"\n".join(...)`. -/
def joinNl : List (List Char) → List Char
  | [] => []
  | [x] => x
  | x :: y :: t => x ++ '\n' :: joinNl (y :: t)

/-- Model of `", ".join(...)`. -/
def joinCommaSep : List (List Char) → List Char
  | [] => []
  | [x] => x
  | x :: y :: t => x ++ ',' :: ' ' :: joinCommaSep (y :: t)

/-- A tool as held by the handlers (`Tool` of `mcp/tool.py`): name,
description, input schema, system flag. -/
structure SlackTool : Type where
  name : List Char
  description : List Char
  input_schema : Json
  is_system : Bool

/-- Model of `Tool.format_for_llm`: one argument line per property of
the schema (with its description or a default, and a required mark),
then the name/description/arguments template.  A schema whose
`properties` or `required` entry is present but of an unexpected shape
is outside the fragment and treated as absent. -/
def format_for_llm (t : SlackTool) : List Char :=
  let props := match jsonObjGet t.input_schema "properties".toList with
    | some (Json.obj ps) => ps
    | _ => []
  let reqList := match jsonObjGet t.input_schema "required".toList with
    | some (Json.arr xs) => xs
    | _ => []
  let args_desc := props.map (fun kv =>
    let desc := match jsonObjGet kv.2 "description".toList with
      | some v => pyStrOfJson v
      | none => "No description".toList
    let line := "- ".toList ++ kv.1 ++ ": ".toList ++ desc
    if reqList.any (fun x => match x with
        | Json.str s => s == kv.1
        | _ => false) then
      line ++ " (required)".toList
    else line)
  "\nTool: ".toList ++ t.name ++ "\nDescription: ".toList ++ t.description
    ++ "\nArguments:\n".toList ++ joinNl args_desc ++ "\n".toList

/-- The `handoff` system tool added by `SlackEventHandlers.__init__`. -/
def handoffTool : SlackTool :=
  ⟨"handoff".toList,
   "Use this tool to hand off your response to continue working on a complex task, showing your work in progress.".toList,
   Json.obj
     [("type".toList, Json.str "object".toList),
      ("properties".toList, Json.obj
        [("message".toList, Json.obj
          [("type".toList, Json.str "string".toList),
           ("description".toList,
            Json.str "The intermediate message to show the user, which will be displayed in italics".toList)])]),
      ("required".toList, Json.arr [Json.str "message".toList])],
   true⟩

/-- The `end_response` system tool added by
`SlackEventHandlers.__init__`. -/
def endResponseTool : SlackTool :=
  ⟨"end_response".toList,
   "Use this tool to finish the conversation after providing your final answer. This will terminate the response.".toList,
   Json.obj
     [("type".toList, Json.str "object".toList),
      ("properties".toList, Json.obj []),
      ("required".toList, Json.arr [])],
   true⟩

/-- The tools list after `SlackEventHandlers.__init__`: the given tools
with the two system tools appended. -/
def initHandlerTools (tools : List SlackTool) : List SlackTool :=
  tools ++ [handoffTool, endResponseTool]

/-- The collaborators and configuration a `SlackEventHandlers` instance
holds: the completion provider (`llm_client.get_response`, modelled as
a function of the message list), the tool providers of the executor,
the result formatting applied at the call site of a tool result
(`json.dumps(result, indent=2)` for a dict, `str(result)` otherwise,
over the abstract result type `α`), the tools list, and the bot id. -/
structure BotCtx (α : Type) : Type where
  llm : List ConvMessage → List Char
  servers : List (ToolProvider α)
  formatResult : α → List Char
  tools : List SlackTool
  bot_id : Option (List Char)

/-- The state threaded through the orchestration loop, with the effects
made explicit: the accumulated LLM context, the texts sent to Slack (in
order), the conversation store, the provider-invocation events, the
LLM responses received (in order), the number of LLM requests, and the
`response_complete` flag. -/
structure LoopState : Type where
  messages : List ConvMessage
  said : List (List Char)
  store : ConvStore
  events : List ExecEvent
  trace : List (List Char)
  llmCalls : Nat
  complete : Bool

/-- The system prompt of step 5 appended when a response carries no
tool call. -/
def step5PromptMsg : ConvMessage :=
  mkMsg "system".toList
    "Now proceed to STEP 5: End the conversation with the end_response tool. Send ONLY the end_response tool call.".toList

/-- The system prompt appended when the marker is present but nothing
parses. -/
def cantParseMsg : ConvMessage :=
  mkMsg "system".toList
    "Your tool call could not be parsed. Please use the exact format specified in the instructions.".toList

/-- The corrective reminder appended when one response carries several
tool calls. -/
def oneToolReminderMsg : ConvMessage :=
  mkMsg "system".toList
    "REMINDER: You should only include ONE tool call per response. Continue with the next tool or step.".toList

/-- The continue prompt of the (dead) handoff branch at the bottom of
the loop body. -/
def handoffContinueMsg : ConvMessage :=
  mkMsg "system".toList
    "Continue with STEP 2: Make your next tool call following the conversation flow. Remember to send only ONE tool call in your next response, exactly in the format specified.".toList

/-- The continue prompt appended after a regular tool call. -/
def regularContinueMsg : ConvMessage :=
  mkMsg "system".toList
    ("Continue with STEP 3: Send a handoff message explaining what you found and what you".toList
      ++ '\'' :: "ll do next. If you have all the information needed, proceed to STEP 4 instead and provide your final answer without any tool calls.".toList)

/-- The notice sent when the iteration cap is reached. -/
def maxStepsNotice : List Char :=
  "I".toList ++ '\'' :: "ve reached the maximum number of steps for this request. Here".toList
    ++ '\'' :: "s what I".toList ++ '\'' :: "ve found so far.".toList

/-- The `_Using tool: ..._` notice. -/
def usingToolSay (nm : List Char) : List Char :=
  "_Using tool: ".toList ++ nm ++ "_".toList

/-- The context message after a successful tool execution. -/
def execSuccessMsg (nm rs : List Char) : ConvMessage :=
  mkMsg "system".toList
    ("Tool ".toList ++ nm ++ " executed successfully. Result:\n".toList ++ rs)

/-- The `_Error executing tool ..._` notice. -/
def execErrorSay (nm e : List Char) : List Char :=
  "_Error executing tool ".toList ++ nm ++ ": ".toList ++ e ++ "_".toList

/-- The context message after a failed tool execution. -/
def execFailedMsg (nm e : List Char) : ConvMessage :=
  mkMsg "system".toList
    ("Tool ".toList ++ nm ++ " failed with error: ".toList ++ e)

/-- The `_Tool not found: ..._` notice. -/
def notFoundSay (nm : List Char) : List Char :=
  "_Tool not found: ".toList ++ nm ++ "_".toList

/-- The context message when no provider owns the tool. -/
def notFoundMsg (nm : List Char) (avail : List (List Char)) : ConvMessage :=
  mkMsg "system".toList
    ("Tool ".toList ++ nm ++ " not found. Available tools: ".toList ++ joinCommaSep avail)

/-- The `all_available_tools` listing computed before the dispatch walk
of the loop body: the names of every provider whose catalog fetch
succeeds, in order (a raising provider is skipped). -/
def allAvailableTools {α : Type} (servers : List (ToolProvider α)) : List (List Char) :=
  (servers.filterMap (fun s => s.listTools.toOption)).flatten

/-- The outcome of the inline dispatch walk of the loop body: the texts
said, the context messages appended, the invocation events, and the
`tool_found` flag. -/
structure LoopDispatchOut : Type where
  said : List (List Char)
  msgs : List ConvMessage
  events : List ExecEvent
  found : Bool

/-- Model of the inline provider walk of `_process_multi_turn_response`
for a regular tool: skip a provider whose catalog fetch raises; on the
first provider whose catalog contains the name, send the using-tool
notice, invoke the tool, and append the success or failure context
message; stop after it. -/
def loopDispatchFrom {α : Type} (fmt : α → List Char) (idx : Nat) (tc : ToolCall) :
    List (ToolProvider α) → LoopDispatchOut
  | [] => ⟨[], [], [], false⟩
  | srv :: rest =>
    match srv.listTools with
    | .error _ => loopDispatchFrom fmt (idx + 1) tc rest
    | .ok names =>
      if tc.tool_name ∈ names then
        match srv.executeTool tc.tool_name tc.arguments with
        | .ok r =>
          ⟨[usingToolSay tc.tool_name],
           [execSuccessMsg tc.tool_name (fmt r)],
           [⟨idx, tc.tool_name, tc.arguments⟩], true⟩
        | .error e =>
          ⟨[usingToolSay tc.tool_name, execErrorSay tc.tool_name e],
           [execFailedMsg tc.tool_name e],
           [⟨idx, tc.tool_name, tc.arguments⟩], true⟩
      else loopDispatchFrom fmt (idx + 1) tc rest

/-- The body of `_process_multi_turn_response` from the point where one
tool call has been selected (the source text after the length checks,
with its stray indentation read as the evident if/elif chain): the
handoff branch relays the italic message and continues; the
end_response branch sets the completion flag and breaks; a regular name
is dispatched over the providers, a not-found name reported, and then
the bottom of the body appends the next-step prompt while iterations
remain, or relays the cap notice and completes at the cap.  `i` is the
current (already incremented) iteration count. -/
def afterParse {α : Type} (ctx : BotCtx α) (cid : List Char) (i : Nat)
    (st : LoopState) (tc : ToolCall) : LoopState :=
  if tc.tool_name = "handoff".toList then
    let txt := '_' :: (pyStrOfJson
      ((jsonObjGet tc.arguments "message".toList).getD
        (Json.str "Working on your request...".toList)) ++ ['_'])
    let note := match jsonObjGet tc.arguments "message".toList with
      | some v => pyStrOfJson v
      | none => "None".toList
    { st with
      said := st.said ++ [txt]
      store := add_message st.store cid "assistant".toList txt none
      messages := st.messages
        ++ [mkMsg "assistant".toList ("I sent an intermediate message: ".toList ++ note)] }
  else if tc.tool_name = "end_response".toList then
    { st with complete := true }
  else
    let available := allAvailableTools ctx.servers
    let d := loopDispatchFrom ctx.formatResult 0 tc ctx.servers
    let st1 := { st with
      said := st.said ++ d.said
      messages := st.messages ++ d.msgs
      events := st.events ++ d.events }
    let st2 :=
      if d.found = false ∧ tc.tool_name ∉ (["handoff".toList, "end_response".toList] : List (List Char)) then
        { st1 with
          said := st1.said ++ [notFoundSay tc.tool_name]
          messages := st1.messages ++ [notFoundMsg tc.tool_name available] }
      else st1
    if st2.complete = false ∧ i < max_iterations then
      if tc.tool_name = "handoff".toList then
        { st2 with messages := st2.messages ++ [handoffContinueMsg] }
      else if tc.tool_name = "end_response".toList then
        { st2 with complete := true }
      else
        { st2 with messages := st2.messages ++ [regularContinueMsg] }
    else if max_iterations ≤ i then
      { st2 with said := st2.said ++ [maxStepsNotice], complete := true }
    else st2

/-- One iteration of the while body of `_process_multi_turn_response`:
request a completion; with no marker, relay the text as an answer,
record it, and prompt for step 5; otherwise parse, handle the
zero-calls case, select the first call (appending the corrective
reminder when there are several), and hand over to `afterParse`. -/
def iterBody {α : Type} (ctx : BotCtx α) (cid : List Char) (i : Nat)
    (st : LoopState) : LoopState :=
  let response := ctx.llm st.messages
  let st0 := { st with llmCalls := st.llmCalls + 1, trace := st.trace ++ [response] }
  if hasSub marker response = false then
    { st0 with
      said := st0.said ++ [response]
      store := add_message st0.store cid "assistant".toList response none
      messages := st0.messages ++ [step5PromptMsg] }
  else
    match (split_response response).2 with
    | [] => { st0 with messages := st0.messages ++ [cantParseMsg] }
    | [tc] => afterParse ctx cid i st0 tc
    | tc :: _ :: _ =>
      afterParse ctx cid i
        { st0 with messages := st0.messages ++ [oneToolReminderMsg] } tc

/-- The while loop of `_process_multi_turn_response`: run while the
response is not complete and fewer than `max_iterations` iterations
have run; `remaining` is the number of iterations the cap still
allows, so the loop guard `iterations < max_iterations` is the fuel
pattern.  Returns the final state and the final iteration count. -/
def loopGo {α : Type} (ctx : BotCtx α) (cid : List Char) :
    Nat → Nat → LoopState → LoopState × Nat
  | 0, iterations, st => (st, iterations)
  | remaining + 1, iterations, st =>
    if st.complete then (st, iterations)
    else loopGo ctx cid remaining (iterations + 1) (iterBody ctx cid (iterations + 1) st)

/-- Model of `_process_multi_turn_response`: the loop started on the
given context with no effects yet. -/
def process_multi_turn_response {α : Type} (ctx : BotCtx α) (cid : List Char)
    (msgs : List ConvMessage) (store : ConvStore) : LoopState × Nat :=
  loopGo ctx cid max_iterations 0 ⟨msgs, [], store, [], [], 0, false⟩

/-- Model of `str.replace` (all non-overlapping occurrences, left to
right), fuel-indexed by the text length. -/
def replaceAux (pat repl : List Char) : Nat → List Char → List Char
  | 0, s => s
  | _ + 1, [] => []
  | fuel + 1, c :: rest =>
    if pat ≠ [] ∧ pat.isPrefixOf (c :: rest) then
      repl ++ replaceAux pat repl fuel ((c :: rest).drop pat.length)
    else c :: replaceAux pat repl fuel rest

/-- Model of `text.replace(pat, repl)`. -/
def pyReplace (s pat repl : List Char) : List Char :=
  replaceAux pat repl s.length s

/-- The mention token `<@bot_id>`. -/
def mentionToken (bid : List Char) : List Char :=
  "<@".toList ++ bid ++ ">".toList

/-- An inbound Slack message event, with the fields `_process_message`
reads; `user`, `text` and `thread_ts` may be absent. -/
structure SlackEvent : Type where
  channel : List Char
  user : Option (List Char)
  text : Option (List Char)
  thread_ts : Option (List Char)
  ts : List Char

/-- The observable outcome of `_process_message`: the texts sent, the
final conversation store, the number of completion requests, and the
provider-invocation events. -/
structure ProcessOut : Type where
  said : List (List Char)
  store : ConvStore
  llmCalls : Nat
  events : List ExecEvent

/-- The step 1 instruction appended for the initial greeting request. -/
def step1Prompt : ConvMessage :=
  mkMsg "system".toList
    ("EXECUTE STEP 1 ONLY: Generate a brief initial greeting that acknowledges the user".toList
      ++ '\'' :: "s request and explains what tools you plan to use. This should be plain text without any [TOOL] tags. Remember, this is just the first step of the conversation flow described in your instructions.".toList)

/-- The system prompt built by `_process_message` (the f-string of
`handlers.py` with the tools text interpolated; doubled braces are the
literal braces below, and the doubled backslashes of the source are
literal backslash-quote and backslash-n sequences). -/
def systemPromptContent (toolsText : List Char) : List Char :=
  "You are a helpful Slack bot with access to powerful tools. You MUST follow this EXACT conversation flow for EVERY request:\n\nSTEP 1: Initial Greeting - DO NOT USE ANY TOOL YET\n- Acknowledge the user".toList
  ++ '\'' :: "s request\n- Tell them what tools you".toList
  ++ '\'' :: "ll use to help them\n\nSTEP 2: Tool Usage - EACH RESPONSE MUST CONTAIN EXACTLY ONE TOOL CALL\n- For each tool you need, make ONE separate response with ONLY that tool call\n- Format each tool call EXACTLY like this:\n  [TOOL] tool_name\n  \x7b\"param1\": \"value1\", \"param2\": \"value2\"\x7d\n\nSTEP 3: Progress Updates - USE HANDOFF TOOL BETWEEN REGULAR TOOLS\n- After each regular tool call, send a handoff message to explain what you found and what you".toList
  ++ '\'' :: "ll do next\n- Format the handoff EXACTLY like this:\n  [TOOL] handoff\n  \x7b\"message\": \"I found X using the first tool. Now I".toList
  ++ '\'' :: "ll use Y tool to...\"\x7d\n\nSTEP 4: Final Answer - REGULAR TEXT RESPONSE WITH YOUR FINDINGS\n- Provide a complete answer based on all tool results\n- Summarize what you found\n- DO NOT use any tool calls in this response\n\nSTEP 5: End Conversation - MUST BE YOUR LAST RESPONSE\n- Use ONLY the end_response tool to finish\n- Format EXACTLY like this:\n  [TOOL] end_response\n  \x7b\x7d\n\nAvailable tools:\n\n".toList
  ++ toolsText
  ++ "\n\nIMPORTANT RULES:\n1. NEVER combine multiple tool calls in a single response\n2. NEVER skip the final end_response tool call\n3. NEVER add extra text around tool calls - ONLY the [TOOL] format\n4. ALWAYS use handoff between tools to show progress\n5. ALWAYS make your final answer a plain text response WITHOUT tool calls\n6. ALWAYS end with the end_response tool in a separate response\n\nExample conversation flow:\n1. User: \"Tell me about active Slack channels\"\n2. You: \"I".toList
  ++ '\'' :: "ll help you get information about the active Slack channels. I".toList
  ++ '\'' :: "ll use the list_channels tool to find all channels, then check each one".toList
  ++ '\'' :: "s activity.\"\n3. You: \"[TOOL] list_channels\\n\x7b\x7d\"\n4. You: \"[TOOL] handoff\\n\x7b\\\"message\\\": \\\"I found 5 channels. I".toList
  ++ '\'' :: "ll now check the activity in each one.\\\"\x7d\"\n5. You: \"[TOOL] channel_history\\n\x7b\\\"channel_id\\\": \\\"C12345\\\"\x7d\"\n6. You: \"Based on my analysis, there are 5 active channels. The most active is #general with 120 messages today, followed by #random with 45 messages...\"\n7. You: \"[TOOL] end_response\\n\x7b\x7d\"\n\nThis specific flow with separate responses for each step is MANDATORY.\n".toList

/-- Model of `_process_message`: drop the event when its author equals
the bot id (in particular an absent author against an unset bot id);
otherwise strip the mention when the bot id is truthy, derive the
conversation id from channel and thread, build the system prompt,
record the user message, read the recent history, request and relay the
initial greeting, record it, then run the multi-turn loop. -/
def process_message {α : Type} (ctx : BotCtx α) (event : SlackEvent)
    (store0 : ConvStore) : ProcessOut :=
  if event.user = ctx.bot_id then ⟨[], store0, 0, []⟩
  else
    let text0 := event.text.getD []
    let text := match ctx.bot_id with
      | some bid => if bid = [] then text0 else pyStrip (pyReplace text0 (mentionToken bid) [])
      | none => text0
    let tts := event.thread_ts.getD event.ts
    let cid := event.channel ++ '-' :: tts
    let toolsText := joinNl (ctx.tools.map format_for_llm)
    let sysMsg := mkMsg "system".toList (systemPromptContent toolsText)
    let store1 := add_message store0 cid "user".toList text none
    let gm := get_messages store1 cid DEFAULT_CONVERSATION_HISTORY_LIMIT
    let messages := sysMsg :: gm.2
    let initialResponse := ctx.llm (messages ++ [step1Prompt])
    let store3 := add_message gm.1 cid "assistant".toList initialResponse none
    let lp := loopGo ctx cid max_iterations 0 ⟨messages, [], store3, [], [], 0, false⟩
    ⟨initialResponse :: lp.1.said, lp.1.store, 1 + lp.1.llmCalls, lp.1.events⟩

def srvOther : ToolProvider Nat := ⟨Except.ok ["other".toList], fun _ _ => Except.ok 1⟩

def srvQuery : ToolProvider Nat := ⟨Except.ok ["query".toList], fun _ _ => Except.error "boom".toList⟩

def emptyCtx : BotCtx Unit := ⟨fun _ => [], [], fun _ => [], [], none⟩

def workCtx : BotCtx Unit :=
  ⟨fun _ => ("[TOOL] work\n\x7b\x7d").toList, [], fun _ => [], [], none⟩

def helloCtx : BotCtx Unit := ⟨fun _ => "hello".toList, [], fun _ => [], [], none⟩

def twoCallCtx : BotCtx Unit :=
  ⟨fun _ => ("[TOOL] a\n\x7b\x7d\n[TOOL] b\n\x7b\x7d").toList, [], fun _ => [], [], none⟩

def startState : LoopState := ⟨[], [], [], [], [], 0, false⟩

/-- A text that may legally follow a rendered integer: empty, or headed by
a character that neither extends the digit run nor turns the number into a
float literal. -/
def numBoundary (z : List Char) : Bool :=
  match z with
  | [] => true
  | c :: _ => !(c.isDigit || c = '.' || c = 'e' || c = 'E')

theorem dropWhile_eq_self_of {p : Char → Bool} {l : List Char}
    (h : ∀ c ∈ l, p c = false) : l.dropWhile p = l := by
  cases l with
  | nil => rfl
  | cons c t => simp [List.dropWhile_cons, h c (List.mem_cons_self c t)]

theorem pyStrip_of_no_ws {s : List Char} (h : ∀ c ∈ s, pyIsSpace c = false) :
    pyStrip s = s := by
  unfold pyStrip
  rw [dropWhile_eq_self_of h,
    dropWhile_eq_self_of (fun c hc => h c (List.mem_reverse.mp hc)), List.reverse_reverse]

/-- C9: for a response containing no occurrence of the `[TOOL]` marker,
`split_response` returns the input text itself as the preamble together with
an empty invocation list. -/
theorem split_response_no_marker (s : List Char) (h : hasSub marker s = false) :
    split_response s = (s, []) := by
  simp [split_response, h]

theorem split_response_no_marker_witness :
    hasSub marker ("Just a simple response".toList) = false ∧
      split_response ("Just a simple response".toList) =
        ("Just a simple response".toList, []) :=
  ⟨rfl, split_response_no_marker _ rfl⟩

/-- C3 counterexample: reading an unknown key with `get_messages` does create
an entry (the read goes through `get_or_create_conversation`, so the empty
store grows a key), and with `limit = 0` a known key returns all its messages
rather than at most `0`, because Python's `xs[-0:]` is the whole list. -/
theorem get_messages_read_counterexample :
    (get_messages ([] : ConvStore) ("k".toList) 5).1 ≠ ([] : ConvStore) ∧
      (get_messages [("k".toList, [mkMsg "user".toList "a".toList])] ("k".toList) 0).2.length = 1 := by
  refine ⟨?_, rfl⟩
  have h : (get_messages ([] : ConvStore) ("k".toList) 5).1 = [("k".toList, [])] := rfl
  rw [h]
  exact List.cons_ne_nil _ _

/-- C3 (amended): for an unknown key `get_messages` returns an empty sequence
but appends a fresh empty conversation for that key to the store; for a known
key the store is unchanged and, for `limit >= 1`, the result is the suffix of
at most `limit` most-recent stored messages in chronological order, while
`limit = 0` returns every stored message. -/
theorem get_messages_amended (st : ConvStore) (cid : List Char) (limit : Nat) :
    (List.lookup cid st = none →
        (get_messages st cid limit).2 = [] ∧
          (get_messages st cid limit).1 = st ++ [(cid, [])]) ∧
      (∀ ms, List.lookup cid st = some ms →
        (get_messages st cid limit).1 = st ∧
          (get_messages st cid limit).2 <:+ ms ∧
          (1 ≤ limit → (get_messages st cid limit).2 = ms.drop (ms.length - limit) ∧
            (get_messages st cid limit).2.length ≤ limit) ∧
          (limit = 0 → (get_messages st cid limit).2 = ms)) := by
  constructor
  · intro h
    simp [get_messages, get_or_create_conversation, h]
  · intro ms h
    cases ms with
    | nil =>
      refine ⟨?_, ?_, ?_, ?_⟩ <;>
        simp [get_messages, get_or_create_conversation, h]
    | cons m ms' =>
      have h2 : get_messages st cid limit = (st, pySliceLast limit (m :: ms')) := by
        simp [get_messages, get_or_create_conversation, h]
      rw [h2]
      refine ⟨rfl, ?_, ?_, ?_⟩
      · by_cases hl : limit = 0
        · simp [pySliceLast, hl]
        · simp only [pySliceLast, if_neg hl]
          exact List.drop_suffix _ _
      · intro hl
        have hne : limit ≠ 0 := by omega
        refine ⟨by simp [pySliceLast, hne], ?_⟩
        simp only [pySliceLast, if_neg hne, List.length_drop]
        omega
      · intro hl
        simp [pySliceLast, hl]

theorem get_messages_amended_witness :
    (get_messages ([] : ConvStore) ("k".toList) 5).2 = [] ∧
      (get_messages ([] : ConvStore) ("k".toList) 5).1 = [] ++ [("k".toList, [])] :=
  (get_messages_amended [] ("k".toList) 5).1 rfl

theorem dispatchFrom_not_available_aux {α : Type} (tc : ToolCall) :
    ∀ (servers : List (ToolProvider α)) (idx : Nat),
      (∀ srv ∈ servers, ∀ names, srv.listTools = .ok names → tc.tool_name ∉ names) →
      dispatchFrom idx tc servers =
        (⟨tc.tool_name, false, none, some (notAvailableMsg tc.tool_name), none⟩, []) := by
  intro servers
  induction servers with
  | nil => intro idx h; rfl
  | cons srv rest ih =>
    intro idx h
    have hrest : ∀ s ∈ rest, ∀ names, s.listTools = .ok names → tc.tool_name ∉ names :=
      fun s hs => h s (List.mem_cons_of_mem _ hs)
    cases hls : srv.listTools with
    | error e =>
      simpa [dispatchFrom, hls] using ih (idx + 1) hrest
    | ok names =>
      have hmem : tc.tool_name ∉ names := h srv (List.mem_cons_self _ _) names hls
      simpa [dispatchFrom, hls, hmem] using ih (idx + 1) hrest

/-- C4: an invocation whose tool name is in no provider's catalog yields a
result record with `success = false`, no result payload, the error message
`Tool '<name>' not available`, and an empty event trace — no provider's
execute operation is ever called for it. -/
theorem dispatch_unknown_tool {α : Type} (servers : List (ToolProvider α)) (tc : ToolCall)
    (h : ∀ srv ∈ servers, ∀ names, srv.listTools = .ok names → tc.tool_name ∉ names) :
    dispatchFrom 0 tc servers =
      (⟨tc.tool_name, false, none, some (notAvailableMsg tc.tool_name), none⟩, []) :=
  dispatchFrom_not_available_aux tc servers 0 h

theorem dispatch_unknown_tool_witness :
    dispatchFrom 0 ⟨"missing".toList, Json.obj []⟩
        ([⟨Except.ok ["query".toList], fun _ _ => Except.ok 0⟩] : List (ToolProvider Nat)) =
      (⟨"missing".toList, false, none, some (notAvailableMsg "missing".toList), none⟩, []) := by
  refine dispatch_unknown_tool _ _ ?_
  intro srv hs names hok
  rw [List.mem_singleton] at hs
  subst hs
  simp only at hok
  injection hok with hok
  subst hok
  decide

theorem dispatchFrom_first_match {α : Type} (tc : ToolCall) :
    ∀ (servers : List (ToolProvider α)) (i idx : Nat) (srv : ToolProvider α)
      (names : List (List Char)),
      servers[i]? = some srv →
      srv.listTools = .ok names →
      tc.tool_name ∈ names →
      (∀ j, j < i → ∀ srv' names', servers[j]? = some srv' →
        srv'.listTools = .ok names' → tc.tool_name ∉ names') →
      dispatchFrom idx tc servers =
        (match srv.executeTool tc.tool_name tc.arguments with
          | .ok r => (⟨tc.tool_name, true, some tc.arguments, none, some r⟩,
              [⟨idx + i, tc.tool_name, tc.arguments⟩])
          | .error e => (⟨tc.tool_name, false, some tc.arguments, some e, none⟩,
              [⟨idx + i, tc.tool_name, tc.arguments⟩])) := by
  intro servers
  induction servers with
  | nil => intro i idx srv names hget; simp at hget
  | cons s rest ih =>
    intro i idx srv names hget hls hmem hprev
    cases i with
    | zero =>
      simp only [List.getElem?_cons_zero, Option.some.injEq] at hget
      subst hget
      cases hex : s.executeTool tc.tool_name tc.arguments <;>
        simp [dispatchFrom, hls, hmem, hex]
    | succ n =>
      simp only [List.getElem?_cons_succ] at hget
      have hprev' : ∀ j, j < n → ∀ srv' names', rest[j]? = some srv' →
          srv'.listTools = .ok names' → tc.tool_name ∉ names' := by
        intro j hj srv' names' hg hok
        exact hprev (j + 1) (by omega) srv' names' (by simpa using hg) hok
      have step : dispatchFrom idx tc (s :: rest) = dispatchFrom (idx + 1) tc rest := by
        cases hls0 : s.listTools with
        | error e => simp [dispatchFrom, hls0]
        | ok names0 =>
          have : tc.tool_name ∉ names0 :=
            hprev 0 (by omega) s names0 (by simp) hls0
          simp [dispatchFrom, hls0, this]
      rw [step, ih n (idx + 1) srv names hget hls hmem hprev']
      have harith : idx + 1 + n = idx + (n + 1) := by omega
      rw [harith]

theorem execute_tools_length {α : Type} (servers : List (ToolProvider α)) :
    ∀ calls : List ToolCall, (execute_tools servers calls).1.length = calls.length
  | [] => rfl
  | tc :: rest => by
    simp [execute_tools, execute_tools_length servers rest]

/-- C5: when the selected provider's execute operation fails, the dispatcher
catches the error and produces a result record with `success = false`, the
original arguments, the exception text as the error, and a `None` result —
the exception does not propagate, and exactly one execution event was
emitted. -/
theorem dispatch_exec_error {α : Type} (servers : List (ToolProvider α)) (tc : ToolCall)
    (i : Nat) (srv : ToolProvider α) (names : List (List Char)) (e : List Char)
    (hget : servers[i]? = some srv)
    (hls : srv.listTools = .ok names)
    (hmem : tc.tool_name ∈ names)
    (hprev : ∀ j, j < i → ∀ srv' names', servers[j]? = some srv' →
      srv'.listTools = .ok names' → tc.tool_name ∉ names')
    (herr : srv.executeTool tc.tool_name tc.arguments = .error e) :
    dispatchFrom 0 tc servers =
        (⟨tc.tool_name, false, some tc.arguments, some e, none⟩,
          [⟨i, tc.tool_name, tc.arguments⟩]) ∧
      ∀ calls : List ToolCall, (execute_tools servers calls).1.length = calls.length := by
  constructor
  · have h := dispatchFrom_first_match tc servers i 0 srv names hget hls hmem hprev
    rw [herr] at h
    simpa using h
  · exact execute_tools_length servers

/-- C6: when an invocation's tool name appears in a provider's catalog, the
first such provider in registration order executes it, exactly once, with the
parsed argument object passed unchanged; the event trace shows the single
execution on that provider and no execution on any other. -/
theorem dispatch_first_match_events {α : Type} (servers : List (ToolProvider α)) (tc : ToolCall)
    (i : Nat) (srv : ToolProvider α) (names : List (List Char))
    (hget : servers[i]? = some srv)
    (hls : srv.listTools = .ok names)
    (hmem : tc.tool_name ∈ names)
    (hprev : ∀ j, j < i → ∀ srv' names', servers[j]? = some srv' →
      srv'.listTools = .ok names' → tc.tool_name ∉ names') :
    (dispatchFrom 0 tc servers).2 = [⟨i, tc.tool_name, tc.arguments⟩] := by
  have h := dispatchFrom_first_match tc servers i 0 srv names hget hls hmem hprev
  cases hex : srv.executeTool tc.tool_name tc.arguments <;> rw [hex] at h <;> simp [h]

theorem dispatch_exec_error_witness :
    dispatchFrom 0 ⟨"query".toList, Json.obj []⟩ [srvOther, srvQuery] =
        (⟨"query".toList, false, some (Json.obj []), some "boom".toList, none⟩,
          [⟨1, "query".toList, Json.obj []⟩]) ∧
      ∀ calls : List ToolCall,
        (execute_tools [srvOther, srvQuery] calls).1.length = calls.length := by
  refine dispatch_exec_error [srvOther, srvQuery] ⟨"query".toList, Json.obj []⟩ 1 srvQuery
    ["query".toList] "boom".toList rfl rfl (by decide) ?_ rfl
  intro j hj srv' names' hg hok
  interval_cases j
  simp only [List.getElem?_cons_zero, Option.some.injEq] at hg
  subst hg
  simp only [srvOther] at hok
  injection hok with hok
  subst hok
  decide

theorem dispatch_first_match_events_witness :
    (dispatchFrom 0 ⟨"query".toList, Json.obj []⟩ [srvOther, srvQuery]).2 =
      [⟨1, "query".toList, Json.obj []⟩] := by
  refine dispatch_first_match_events [srvOther, srvQuery] ⟨"query".toList, Json.obj []⟩ 1 srvQuery
    ["query".toList] rfl rfl (by decide) ?_
  intro j hj srv' names' hg hok
  interval_cases j
  simp only [List.getElem?_cons_zero, Option.some.injEq] at hg
  subst hg
  simp only [srvOther] at hok
  injection hok with hok
  subst hok
  decide

/-- C10: with the bot identity unset (`bot_id = None`) an inbound event that
carries no `user` field compares equal to the bot identity (`None == None`),
so `_process_message` drops it silently: nothing is said, no completion is
requested, and the conversation store is returned unchanged. -/
theorem process_message_self_drop {α : Type} (ctx : BotCtx α) (event : SlackEvent)
    (store0 : ConvStore) (hb : ctx.bot_id = none) (hu : event.user = none) :
    process_message ctx event store0 = ⟨[], store0, 0, []⟩ := by
  unfold process_message
  rw [hu, hb]
  simp

theorem process_message_self_drop_witness :
    process_message emptyCtx ⟨"C".toList, none, none, none, "1".toList⟩ [] =
      ⟨[], [], 0, []⟩ :=
  process_message_self_drop emptyCtx _ [] rfl rfl


theorem split_response_snd (r : List Char) :
    (split_response r).2 = extract_tool_calls r := by
  by_cases h : hasSub marker r = true
  · simp [split_response, h]
  · simp [split_response, extract_tool_calls, h]

theorem afterParse_events {α : Type} (ctx : BotCtx α) (cid : List Char) (i : Nat)
    (st : LoopState) (tc : ToolCall) :
    (afterParse ctx cid i st tc).events =
      st.events ++
        (if tc.tool_name = "handoff".toList ∨ tc.tool_name = "end_response".toList then []
         else (loopDispatchFrom ctx.formatResult 0 tc ctx.servers).events) := by
  unfold afterParse
  by_cases h1 : tc.tool_name = "handoff".toList
  · simp [h1]
  · by_cases h2 : tc.tool_name = "end_response".toList
    · simp [h1, h2]
    · simp only [if_neg h1, if_neg h2]
      rw [if_neg (show ¬(tc.tool_name = "handoff".toList ∨ tc.tool_name = "end_response".toList) from
        fun hcon => hcon.elim h1 h2)]
      split_ifs <;> simp

theorem afterParse_trace {α : Type} (ctx : BotCtx α) (cid : List Char) (i : Nat)
    (st : LoopState) (tc : ToolCall) :
    (afterParse ctx cid i st tc).trace = st.trace := by
  unfold afterParse
  simp [apply_ite LoopState.trace, ite_self]

theorem afterParse_complete_continue {α : Type} (ctx : BotCtx α) (cid : List Char) (i : Nat)
    (st : LoopState) (tc : ToolCall)
    (hne : tc.tool_name ≠ "end_response".toList) (hc : st.complete = false)
    (hi : i < max_iterations) :
    (afterParse ctx cid i st tc).complete = false := by
  unfold afterParse
  simp only [apply_ite LoopState.complete, ite_self]
  split_ifs <;> simp_all

theorem afterParse_notice {α : Type} (ctx : BotCtx α) (cid : List Char) (i : Nat)
    (st : LoopState) (tc : ToolCall)
    (h1 : tc.tool_name ≠ "handoff".toList) (h2 : tc.tool_name ≠ "end_response".toList)
    (hi : max_iterations ≤ i) :
    maxStepsNotice ∈ (afterParse ctx cid i st tc).said := by
  unfold afterParse
  rw [if_neg h1, if_neg h2]
  have hlt : ¬ i < max_iterations := by omega
  simp only [apply_ite LoopState.said, apply_ite LoopState.complete, ite_self]
  split_ifs <;> simp_all

theorem iterBody_trace {α : Type} (ctx : BotCtx α) (cid : List Char) (i : Nat)
    (st : LoopState) :
    (iterBody ctx cid i st).trace = st.trace ++ [ctx.llm st.messages] := by
  unfold iterBody
  by_cases hm : hasSub marker (ctx.llm st.messages) = false
  · simp [hm]
  · simp only [hm, if_neg]
    rcases hsp : (split_response (ctx.llm st.messages)).2 with _ | ⟨tc, rest⟩
    · simp [hsp]
    · rcases rest with _ | ⟨tc2, rest2⟩ <;> simp [hsp, afterParse_trace]

theorem iterBody_complete {α : Type} (ctx : BotCtx α) (cid : List Char) (i : Nat)
    (st : LoopState)
    (h : ∀ tc ∈ extract_tool_calls (ctx.llm st.messages), tc.tool_name ≠ "end_response".toList)
    (hc : st.complete = false) (hi : i < max_iterations) :
    (iterBody ctx cid i st).complete = false := by
  unfold iterBody
  by_cases hm : hasSub marker (ctx.llm st.messages) = false
  · simp [hm, hc]
  · simp only [hm, if_neg]
    rcases hsp : (split_response (ctx.llm st.messages)).2 with _ | ⟨tc, rest⟩
    · simp [hsp, hc]
    · have htc : tc ∈ extract_tool_calls (ctx.llm st.messages) := by
        rw [← split_response_snd, hsp]; exact List.mem_cons_self _ _
      rcases rest with _ | ⟨tc2, rest2⟩ <;>
        simp only [hsp] <;>
        exact afterParse_complete_continue ctx cid i _ tc (h tc htc) hc hi

theorem loopGo_count {α : Type} (ctx : BotCtx α) (cid : List Char)
    (h : ∀ m tc, tc ∈ extract_tool_calls (ctx.llm m) → tc.tool_name ≠ "end_response".toList) :
    ∀ (remaining iterations : Nat) (st : LoopState),
      remaining + iterations = max_iterations → st.complete = false →
      (loopGo ctx cid remaining iterations st).2 = max_iterations := by
  intro remaining
  induction remaining with
  | zero =>
    intro its st hsum hc
    simp only [loopGo]
    omega
  | succ r ih =>
    intro its st hsum hc
    rw [loopGo, if_neg (by simp [hc])]
    cases r with
    | zero =>
      simp only [loopGo]
      omega
    | succ r' =>
      exact ih (its + 1) _ (by omega)
        (iterBody_complete ctx cid (its + 1) st (fun tc htc => h st.messages tc htc) hc (by omega))

theorem loopGo_notice {α : Type} (ctx : BotCtx α) (cid : List Char)
    (h : ∀ m tc, tc ∈ extract_tool_calls (ctx.llm m) → tc.tool_name ≠ "end_response".toList) :
    ∀ (remaining iterations : Nat) (st : LoopState),
      1 ≤ remaining → remaining + iterations = max_iterations → st.complete = false →
      ∀ resp, ((loopGo ctx cid remaining iterations st).1.trace).getLast? = some resp →
        ∀ tc rest, extract_tool_calls resp = tc :: rest →
          tc.tool_name ≠ "handoff".toList →
          maxStepsNotice ∈ (loopGo ctx cid remaining iterations st).1.said := by
  intro remaining
  induction remaining with
  | zero => intro its st h1; omega
  | succ r ih =>
    intro its st _ hsum hc
    rw [loopGo, if_neg (by simp [hc])]
    cases r with
    | zero =>
      -- final iteration: iterations + 1 = max_iterations
      intro resp hlast tc rest hx hhand
      simp only [loopGo] at hlast ⊢
      rw [iterBody_trace, List.getLast?_concat] at hlast
      injection hlast with hlast
      subst hlast
      -- the response parses to tc :: rest, so iterBody went through afterParse at the cap
      have hits : its + 1 = max_iterations := by omega
      have hne : tc.tool_name ≠ "end_response".toList := h st.messages tc (by rw [hx]; exact List.mem_cons_self _ _)
      have hmarker : hasSub marker (ctx.llm st.messages) = true := by
        by_contra hm
        have hm' : hasSub marker (ctx.llm st.messages) = false := by
          revert hm; cases hasSub marker (ctx.llm st.messages) <;> simp
        have : extract_tool_calls (ctx.llm st.messages) = [] := by
          simp [extract_tool_calls, hm']
        rw [hx] at this
        exact List.cons_ne_nil _ _ this
      unfold iterBody
      rw [if_neg (by simp [hmarker])]
      have hsp : (split_response (ctx.llm st.messages)).2 = tc :: rest :=
        (split_response_snd _).trans hx
      rcases rest with _ | ⟨tc2, rest2⟩ <;>
        simp only [hsp] <;>
        exact afterParse_notice ctx cid (its + 1) _ tc hhand hne (by omega)
    | succ r' =>
      have hc' := iterBody_complete ctx cid (its + 1) st (fun tc htc => h st.messages tc htc) hc
        (by omega)
      exact ih (its + 1) _ (by omega) (by omega) hc'

/-- C1 (amended): with a completion provider that never emits the end_response
sentinel, the orchestration loop terminates after exactly max_iterations = 10
iterations; the maximum-steps notice is relayed when the final iteration
processed a parsed tool call other than handoff (it is not relayed on the
continue paths: a response without the marker, an unparsable tool call, or a
handoff). -/
theorem loop_no_sentinel_exact_cap {α : Type} (ctx : BotCtx α) (cid : List Char)
    (msgs : List ConvMessage) (store : ConvStore)
    (h : ∀ m tc, tc ∈ extract_tool_calls (ctx.llm m) → tc.tool_name ≠ "end_response".toList) :
    (process_multi_turn_response ctx cid msgs store).2 = max_iterations ∧
      ∀ resp, ((process_multi_turn_response ctx cid msgs store).1.trace).getLast? = some resp →
        ∀ tc rest, extract_tool_calls resp = tc :: rest →
          tc.tool_name ≠ "handoff".toList →
          maxStepsNotice ∈ (process_multi_turn_response ctx cid msgs store).1.said := by
  constructor
  · exact loopGo_count ctx cid h max_iterations 0 _ rfl rfl
  · exact loopGo_notice ctx cid h max_iterations 0 _ (by decide) rfl rfl

theorem loop_no_sentinel_exact_cap_witness :
    (process_multi_turn_response workCtx ("C".toList) [] []).2 = max_iterations ∧
      maxStepsNotice ∈ (process_multi_turn_response workCtx ("C".toList) [] []).1.said := by
  have h : ∀ m tc, tc ∈ extract_tool_calls (workCtx.llm m) →
      tc.tool_name ≠ "end_response".toList := by
    intro m tc htc
    have he : extract_tool_calls (workCtx.llm m) = [⟨"work".toList, Json.obj []⟩] := rfl
    rw [he, List.mem_singleton] at htc
    subst htc
    decide
  have H := loop_no_sentinel_exact_cap workCtx ("C".toList) [] [] h
  refine ⟨H.1, ?_⟩
  exact H.2 (("[TOOL] work\n\x7b\x7d").toList) rfl ⟨"work".toList, Json.obj []⟩ [] rfl (by decide)

/-- C1 counterexample: a provider that always answers plain text never emits
the sentinel; the loop runs exactly 10 iterations but the maximum-steps notice
is never relayed, because the no-marker path continues past the cap check. -/
theorem loop_no_sentinel_no_notice_counterexample :
    (∀ m tc, tc ∈ extract_tool_calls (helloCtx.llm m) →
        tc.tool_name ≠ "end_response".toList) ∧
      (process_multi_turn_response helloCtx ("C".toList) [] []).2 = max_iterations ∧
      maxStepsNotice ∉ (process_multi_turn_response helloCtx ("C".toList) [] []).1.said := by
  refine ⟨?_, rfl, ?_⟩
  · intro m tc htc
    have he : extract_tool_calls (helloCtx.llm m) = [] := rfl
    rw [he] at htc
    exact absurd htc (List.not_mem_nil tc)
  · intro hmem
    have hs : (process_multi_turn_response helloCtx ("C".toList) [] []).1.said
        = List.replicate 10 ("hello".toList) := rfl
    rw [hs] at hmem
    exact absurd (List.eq_of_mem_replicate hmem) (by decide)

/-- C8: when one model turn parses to more than one invocation, the loop body
appends the corrective one-tool-per-turn reminder (whose text contains the
words ONE tool call) and then behaves exactly as processing the first
invocation alone: remaining invocations are never dispatched, and the loop is
not terminated by the multi-call situation (it continues unless the first call
is the end_response sentinel or the iteration cap is reached). -/
theorem multi_call_first_only {α : Type} (ctx : BotCtx α) (cid : List Char) (i : Nat)
    (st : LoopState) (tc1 tc2 : ToolCall) (rest : List ToolCall)
    (h : (split_response (ctx.llm st.messages)).2 = tc1 :: tc2 :: rest) :
    iterBody ctx cid i st =
        afterParse ctx cid i
          { st with
            llmCalls := st.llmCalls + 1
            trace := st.trace ++ [ctx.llm st.messages]
            messages := st.messages ++ [oneToolReminderMsg] } tc1 ∧
      hasSub ("ONE tool call".toList) oneToolReminderMsg.content = true ∧
      (iterBody ctx cid i st).events =
        st.events ++
          (if tc1.tool_name = "handoff".toList ∨ tc1.tool_name = "end_response".toList then []
           else (loopDispatchFrom ctx.formatResult 0 tc1 ctx.servers).events) ∧
      (tc1.tool_name ≠ "end_response".toList → st.complete = false → i < max_iterations →
        (iterBody ctx cid i st).complete = false) := by
  have hmarker : hasSub marker (ctx.llm st.messages) = true := by
    by_contra hm
    have hm' : hasSub marker (ctx.llm st.messages) = false := by
      revert hm; cases hasSub marker (ctx.llm st.messages) <;> simp
    have h0 := split_response_no_marker (ctx.llm st.messages) hm'
    rw [h0] at h
    exact List.cons_ne_nil _ _ h.symm
  have hbody : iterBody ctx cid i st =
      afterParse ctx cid i
        { st with
          llmCalls := st.llmCalls + 1
          trace := st.trace ++ [ctx.llm st.messages]
          messages := st.messages ++ [oneToolReminderMsg] } tc1 := by
    unfold iterBody
    rw [if_neg (by simp [hmarker])]
    simp only [h]
  refine ⟨hbody, rfl, ?_, ?_⟩
  · rw [hbody, afterParse_events]
  · intro hne hc hi
    rw [hbody]
    exact afterParse_complete_continue ctx cid i _ tc1 hne hc hi

theorem multi_call_first_only_witness :
    iterBody twoCallCtx ("C".toList) 1 startState =
        afterParse twoCallCtx ("C".toList) 1
          { startState with
            llmCalls := startState.llmCalls + 1
            trace := startState.trace ++ [twoCallCtx.llm startState.messages]
            messages := startState.messages ++ [oneToolReminderMsg] }
          ⟨"a".toList, Json.obj []⟩ ∧
      hasSub ("ONE tool call".toList) oneToolReminderMsg.content = true ∧
      (iterBody twoCallCtx ("C".toList) 1 startState).events = [] ∧
      (iterBody twoCallCtx ("C".toList) 1 startState).complete = false := by
  have H := multi_call_first_only twoCallCtx ("C".toList) 1 startState
    ⟨"a".toList, Json.obj []⟩ ⟨"b".toList, Json.obj []⟩ [] rfl
  refine ⟨H.1, H.2.1, ?_, H.2.2.2 (by decide) rfl (by decide)⟩
  rw [H.2.2.1]
  rfl


theorem scanAux_fuel (fuel : Nat) : ∀ (s : List Char), s.length ≤ fuel →
    scanAux fuel s = scanToolBlocks s := by
  induction fuel using Nat.strong_induction_on with
  | _ fuel ih =>
    intro s hs
    rcases fuel with _ | f
    · have : s = [] := List.eq_nil_of_length_eq_zero (by omega)
      subst this
      rfl
    · rcases s with _ | ⟨c, rest⟩
      · rfl
      · have hr : rest.length ≤ f := by simpa using hs
        show scanAux (f + 1) (c :: rest) = scanAux (rest.length + 1) (c :: rest)
        by_cases hp : marker.isPrefixOf (c :: rest) = true
        · cases hm : matchAfterTool ((c :: rest).drop 6) with
          | none =>
            simp only [scanAux, hp, hm, if_true]
            rw [ih f (by omega) rest hr, ih rest.length (by omega) rest (le_refl _)]
          | some g =>
            obtain ⟨g1, g2, k⟩ := g
            simp only [scanAux, hp, hm, if_true]
            have hlen : ((c :: rest).drop (6 + k)).length ≤ rest.length := by
              rw [List.length_drop]
              simp only [List.length_cons]
              omega
            rw [ih f (by omega) _ (le_trans hlen hr),
              ih rest.length (by omega) _ hlen]
        · simp only [scanAux, hp, Bool.false_eq_true, if_false]
          rw [ih f (by omega) rest hr, ih rest.length (by omega) rest (le_refl _)]

theorem scanAux_match_step (s : List Char) (g1 g2 : List Char) (k : Nat)
    (hpref : marker.isPrefixOf s = true)
    (hmatch : matchAfterTool (s.drop 6) = some (g1, g2, k)) (hs : s ≠ []) :
    scanToolBlocks s = (g1, g2) :: scanToolBlocks (s.drop (6 + k)) := by
  obtain ⟨c, s', rfl⟩ : ∃ c s', s = c :: s' := by
    cases s with
    | nil => exact absurd rfl hs
    | cons c s' => exact ⟨c, s', rfl⟩
  show scanAux (s'.length + 1) (c :: s') = _
  simp only [scanAux, hpref, hmatch, if_true]
  rw [scanAux_fuel s'.length _
    (by rw [List.length_drop]; simp only [List.length_cons]; omega)]

theorem scanToolBlocks_cons_nonmarker (c : Char) (s : List Char) (h : c ≠ '[') :
    scanToolBlocks (c :: s) = scanToolBlocks s := by
  have hp : marker.isPrefixOf (c :: s) = false := by
    have hm : marker = '[' :: "TOOL]".toList := rfl
    rw [hm]
    simp [List.isPrefixOf]
    intro hc
    exact absurd hc.symm h
  show scanAux (s.length + 1) (c :: s) = scanToolBlocks s
  simp only [scanAux, hp, Bool.false_eq_true, if_false]
  exact scanAux_fuel s.length s (le_refl _)

theorem wsRun_cons_false {c : Char} (s : List Char) (h : pyIsSpace c = false) :
    wsRun (c :: s) = 0 := by
  simp [wsRun, List.takeWhile_cons, h]

theorem wsRun_cons_true {c : Char} (s : List Char) (h : pyIsSpace c = true) :
    wsRun (c :: s) = wsRun s + 1 := by
  simp [wsRun, List.takeWhile_cons, h]

theorem ne_nl_of_not_ws {c : Char} (h : pyIsSpace c = false) : (c != '\n') = true := by
  rcases hc : c == '\n' with _ | _
  · simp [bne, hc]
  · exfalso
    have : c = '\n' := by simpa using hc
    subst this
    simp [pyIsSpace] at h

theorem nonNlRun_append (nm z : List Char) (h : ∀ c ∈ nm, pyIsSpace c = false) :
    nonNlRun (nm ++ '\n' :: z) = nm.length := by
  induction nm with
  | nil => simp [nonNlRun, List.takeWhile_cons]
  | cons c t ih =>
    have hc := ne_nl_of_not_ws (h c (List.mem_cons_self c t))
    simp only [List.cons_append, nonNlRun, List.takeWhile_cons, hc, if_true, List.length_cons]
    have := ih (fun c hc2 => h c (List.mem_cons_of_mem _ hc2))
    simp only [nonNlRun] at this
    rw [this]

theorem findBraceIdx_append (mid z : List Char) (h : '\x7d' ∉ mid) :
    findBraceIdx (mid ++ '\x7d' :: z) = some mid.length := by
  induction mid with
  | nil => simp [findBraceIdx]
  | cons c t ih =>
    have hc : ¬ c = '\x7d' := fun hc => h (hc ▸ List.mem_cons_self c t)
    have ht := ih (fun hm => h (List.mem_cons_of_mem _ hm))
    simp [findBraceIdx, hc, ht]

theorem searchDown_top {α : Type} {f : Nat → Option α} {n : Nat} {x : α}
    (h : f n = some x) : searchDown f n = some x := by
  cases n with
  | zero => simpa [searchDown] using h
  | succ m => simp [searchDown, h]

theorem matchBracedGroup_args (mid z : List Char) (h : '\x7d' ∉ mid) :
    matchBracedGroup (('\x7b' :: (mid ++ ['\x7d'])) ++ z)
      = some ('\x7b' :: (mid ++ ['\x7d']), mid.length + 2) := by
  have hshape : ('\x7b' :: (mid ++ ['\x7d'])) ++ z = '\x7b' :: (mid ++ '\x7d' :: z) := by
    simp
  rw [hshape]
  unfold matchBracedGroup
  rw [wsRun_cons_false _ (by decide)]
  simp only [List.drop_zero]
  rw [findBraceIdx_append mid z h]
  show some ('\x7b' :: (mid ++ '\x7d' :: z).take (mid.length + 1), 0 + 1 + (mid.length + 1))
      = some ('\x7b' :: (mid ++ ['\x7d']), mid.length + 2)
  have htake : (mid ++ '\x7d' :: z).take (mid.length + 1) = mid ++ ['\x7d'] := by
    have := @List.take_append _ mid ('\x7d' :: z) 1
    simpa using this
  rw [htake]
  simp only [Option.some.injEq, Prod.mk.injEq]
  exact ⟨trivial, by omega⟩

theorem matchAfterTool_block (nm mid z : List Char)
    (hnm : nm ≠ []) (hws : ∀ c ∈ nm, pyIsSpace c = false) (hmid : '\x7d' ∉ mid) :
    matchAfterTool (' ' :: (nm ++ '\n' :: (('\x7b' :: (mid ++ ['\x7d'])) ++ '\n' :: z)))
      = some (nm, '\x7b' :: (mid ++ ['\x7d']), nm.length + mid.length + 4) := by
  obtain ⟨n0, nm', rfl⟩ : ∃ n0 nm', nm = n0 :: nm' := by
    cases nm with
    | nil => exact absurd rfl hnm
    | cons n0 nm' => exact ⟨n0, nm', rfl⟩
  unfold matchAfterTool
  have hws0 : wsRun (' ' :: ((n0 :: nm') ++ '\n' ::
      (('\x7b' :: (mid ++ ['\x7d'])) ++ '\n' :: z))) = 1 := by
    rw [wsRun_cons_true _ (by decide)]
    simp only [List.cons_append]
    rw [wsRun_cons_false _ (hws n0 (List.mem_cons_self _ _))]
  rw [hws0]
  apply searchDown_top
  simp only [List.drop_succ_cons, List.drop_zero]
  rw [nonNlRun_append _ _ hws]
  apply searchDown_top
  rw [if_neg (show ¬((n0 :: nm').length = 0) by simp)]
  rw [List.take_left, List.drop_left]
  have hws2 : wsRun ('\n' :: (('\x7b' :: (mid ++ ['\x7d'])) ++ '\n' :: z)) = 1 := by
    rw [wsRun_cons_true _ (by decide)]
    simp only [List.cons_append]
    rw [wsRun_cons_false _ (by decide)]
  rw [hws2]
  have hbg := matchBracedGroup_args mid ('\n' :: z) hmid
  simp only [searchDown, List.drop_succ_cons, List.drop_zero, List.cons_append,
    List.nil_append, List.append_assoc, List.singleton_append] at hbg ⊢
  rw [hbg]
  show (some (n0 :: nm', '\x7b' :: (mid ++ ['\x7d']),
      1 + (nm'.length + 1) + 0 + 1 + (mid.length + 2)) :
        Option (List Char × List Char × Nat)) =
    some (n0 :: nm', '\x7b' :: (mid ++ ['\x7d']), nm'.length + 1 + mid.length + 4)
  simp only [Option.some.injEq, Prod.mk.injEq]
  exact ⟨trivial, trivial, by omega⟩


theorem hasSub_cons_false {pat : List Char} {c : Char} {s : List Char}
    (h : hasSub pat (c :: s) = false) :
    pat.isPrefixOf (c :: s) = false ∧ hasSub pat s = false := by
  have := h
  simp only [hasSub, Bool.or_eq_false_iff] at this
  exact this

theorem scanToolBlocks_no_marker (s : List Char) (h : hasSub marker s = false) :
    scanToolBlocks s = [] := by
  induction s with
  | nil => rfl
  | cons c rest ih =>
    obtain ⟨h1, h2⟩ := hasSub_cons_false h
    show scanAux (rest.length + 1) (c :: rest) = []
    simp only [scanAux, h1, Bool.false_eq_true, if_false]
    rw [scanAux_fuel rest.length rest (le_refl _)]
    exact ih h2

theorem hasSub_append_right (pat s t : List Char) (h : hasSub pat t = true) :
    hasSub pat (s ++ t) = true := by
  induction s with
  | nil => simpa using h
  | cons c s' ih => simp [hasSub, ih]

theorem hasSub_self_append (r : List Char) :
    hasSub marker (marker ++ r) = true := by
  have hp : marker.isPrefixOf (marker ++ r) = true :=
    List.isPrefixOf_iff_prefix.mpr (List.prefix_append _ _)
  have hstep : hasSub marker (marker ++ r) =
      (marker.isPrefixOf (marker ++ r) || hasSub marker ("TOOL]".toList ++ r)) := rfl
  rw [hstep, hp]
  simp

theorem marker_not_prefix_of_junk_cons (c : Char) (junk' rest : List Char)
    (hj : hasSub marker (c :: junk') = false)
    (hr : rest = [] ∨ marker.isPrefixOf rest = true) :
    marker.isPrefixOf ((c :: junk') ++ rest) = false := by
  by_contra hcon
  have hpre : marker <+: ((c :: junk') ++ rest) := by
    rw [← List.isPrefixOf_iff_prefix]
    revert hcon
    cases marker.isPrefixOf ((c :: junk') ++ rest) <;> simp
  by_cases hlen : marker.length ≤ (c :: junk').length
  · -- the occurrence would lie inside the junk
    have : marker <+: (c :: junk') := by
      rw [List.prefix_iff_eq_take]
      rw [List.prefix_iff_eq_take] at hpre
      calc marker = List.take marker.length ((c :: junk') ++ rest) := hpre
        _ = List.take marker.length (c :: junk') := List.take_append_of_le_length hlen
    have hp2 : marker.isPrefixOf (c :: junk') = true := List.isPrefixOf_iff_prefix.mpr this
    have := (hasSub_cons_false hj).1
    rw [this] at hp2
    exact Bool.false_ne_true hp2
  · -- the junk is shorter than the marker, so the occurrence spans into rest
    push_neg at hlen
    rcases hr with rfl | hrm
    · -- rest empty: the whole text is shorter than the marker
      have hle := hpre.length_le
      simp only [List.append_nil, List.length_cons] at hle hlen
      omega
    · -- rest starts with the marker, whose head is the bracket
      have hget : marker[(c :: junk').length]? = some '[' := by
        rw [List.prefix_iff_eq_take] at hpre
        have h6 : marker.length = 6 := rfl
        have hlen' : (c :: junk').length < 6 := by omega
        -- marker = (c :: junk') ++ take (6 - len) rest
        have hdecomp : marker = (c :: junk') ++ (rest.take (6 - (c :: junk').length)) := by
          have := @List.take_append _ (c :: junk') rest (6 - (c :: junk').length)
          rw [hpre, h6]
          rw [show (c :: junk').length + (6 - (c :: junk').length) = 6 by omega] at this
          exact this
        rw [hdecomp, List.getElem?_append_right (le_refl _)]
        simp only [Nat.sub_self]
        rw [List.getElem?_take, if_pos (by omega)]
        -- rest starts with the marker, so rest[0]? is the bracket
        have : rest <:+: rest := List.infix_refl rest
        rcases List.isPrefixOf_iff_prefix.mp hrm with ⟨t, ht⟩
        rw [← ht]
        rfl
      have hlen' : (c :: junk').length < 6 := by
        have h6 : marker.length = 6 := rfl
        omega
      rw [show (c :: junk').length = junk'.length + 1 from rfl] at hget hlen'
      generalize hgen : junk'.length = n at hget hlen'
      have hn4 : n ≤ 4 := by omega
      interval_cases n <;> exact absurd hget (by decide)
  
theorem scan_skip_junk (junk rest : List Char) (hj : hasSub marker junk = false)
    (hr : rest = [] ∨ marker.isPrefixOf rest = true) :
    scanToolBlocks (junk ++ rest) = scanToolBlocks rest := by
  induction junk with
  | nil => rfl
  | cons c junk' ih =>
    have hp' := marker_not_prefix_of_junk_cons c junk' rest hj hr
    have hp : marker.isPrefixOf (c :: (junk' ++ rest)) = false := hp'
    have hj' : hasSub marker junk' = false := (hasSub_cons_false hj).2
    show scanAux ((junk' ++ rest).length + 1) (c :: (junk' ++ rest)) = _
    simp only [scanAux, hp, Bool.false_eq_true, if_false]
    rw [scanAux_fuel (junk' ++ rest).length _ (le_refl _)]
    exact ih hj'

theorem scanToolBlocks_block (nm mid z : List Char)
    (hnm : nm ≠ []) (hws : ∀ c ∈ nm, pyIsSpace c = false) (hmid : '\x7d' ∉ mid) :
    scanToolBlocks (toolBlock nm ('\x7b' :: (mid ++ ['\x7d'])) ++ z)
      = (nm, '\x7b' :: (mid ++ ['\x7d'])) :: scanToolBlocks z := by
  have hshape : toolBlock nm ('\x7b' :: (mid ++ ['\x7d'])) ++ z =
      marker ++ (' ' :: (nm ++ '\n' :: (('\x7b' :: (mid ++ ['\x7d'])) ++ '\n' :: z))) := by
    simp [toolBlock]
  rw [hshape]
  have hpref : marker.isPrefixOf (marker ++ (' ' :: (nm ++ '\n' ::
      (('\x7b' :: (mid ++ ['\x7d'])) ++ '\n' :: z)))) = true :=
    List.isPrefixOf_iff_prefix.mpr (List.prefix_append _ _)
  have hdrop6 : (marker ++ (' ' :: (nm ++ '\n' ::
      (('\x7b' :: (mid ++ ['\x7d'])) ++ '\n' :: z)))).drop 6 =
      ' ' :: (nm ++ '\n' :: (('\x7b' :: (mid ++ ['\x7d'])) ++ '\n' :: z)) := by
    have := List.drop_left marker (' ' :: (nm ++ '\n' ::
      (('\x7b' :: (mid ++ ['\x7d'])) ++ '\n' :: z)))
    rwa [show marker.length = 6 from rfl] at this
  have hmatch : matchAfterTool ((marker ++ (' ' :: (nm ++ '\n' ::
      (('\x7b' :: (mid ++ ['\x7d'])) ++ '\n' :: z)))).drop 6) =
      some (nm, '\x7b' :: (mid ++ ['\x7d']), nm.length + mid.length + 4) := by
    rw [hdrop6]
    exact matchAfterTool_block nm mid z hnm hws hmid
  rw [scanAux_match_step _ nm ('\x7b' :: (mid ++ ['\x7d'])) (nm.length + mid.length + 4)
    hpref hmatch (by simp [marker])]
  have hdropk : (marker ++ (' ' :: (nm ++ '\n' ::
      (('\x7b' :: (mid ++ ['\x7d'])) ++ '\n' :: z)))).drop (6 + (nm.length + mid.length + 4)) =
      '\n' :: z := by
    have hsplit : marker ++ (' ' :: (nm ++ '\n' ::
        (('\x7b' :: (mid ++ ['\x7d'])) ++ '\n' :: z))) =
        (marker ++ (' ' :: (nm ++ '\n' :: ('\x7b' :: (mid ++ ['\x7d']))))) ++ ('\n' :: z) := by
      simp
    rw [hsplit]
    have hlen : (marker ++ (' ' :: (nm ++ '\n' :: ('\x7b' :: (mid ++ ['\x7d']))))).length =
        6 + (nm.length + mid.length + 4) := by
      simp [marker]
      omega
    rw [← hlen, List.drop_left]
  rw [hdropk]
  rw [scanToolBlocks_cons_nonmarker _ _ (by decide)]


theorem goodStrChar_spec {c : Char} (h : goodStrChar c = true) :
    32 ≤ c.toNat ∧ c ≠ '"' ∧ c ≠ '\\' ∧ c ≠ '\x7d' ∧ c ≠ '[' := by
  simp only [goodStrChar, Bool.and_eq_true, bne_iff_ne, Bool.not_eq_true',
    decide_eq_false_iff_not, Nat.not_lt] at h
  exact ⟨h.1.1.1.1, h.1.1.1.2, h.1.1.2, h.1.2, h.2⟩

theorem goodNameChar_spec {c : Char} (h : goodNameChar c = true) :
    pyIsSpace c = false ∧ c ≠ '[' := by
  simp only [goodNameChar, Bool.and_eq_true, bne_iff_ne, Bool.not_eq_true'] at h
  exact h

theorem isDigit_toNat {c : Char} (h : c.isDigit = true) :
    48 ≤ c.toNat ∧ c.toNat ≤ 57 := by
  simp [Char.isDigit] at h
  exact h

theorem charDigitVal_digitChar10 {d : Nat} (h : d < 10) :
    charDigitVal (digitChar10 d) = d := by
  interval_cases d <;> rfl

theorem digitChar10_isDigit {d : Nat} (h : d < 10) :
    (digitChar10 d).isDigit = true := by
  interval_cases d <;> rfl

theorem digitChar10_ne_zero {d : Nat} (h : d < 10) (h0 : d ≠ 0) :
    digitChar10 d ≠ '0' := by
  interval_cases d
  · exact absurd rfl h0
  all_goals decide

theorem renderNat_all_digit (m : Nat) : ∀ c ∈ renderNat m, c.isDigit = true := by
  intro c hc
  unfold renderNat at hc
  split at hc
  · simp at hc
    subst hc
    rfl
  · rw [List.mem_reverse, List.mem_map] at hc
    obtain ⟨d, hd, rfl⟩ := hc
    exact digitChar10_isDigit (Nat.digits_lt_base (by norm_num) hd)

theorem renderNat_ne_nil (m : Nat) : renderNat m ≠ [] := by
  unfold renderNat
  split
  · simp
  · simp only [ne_eq, List.reverse_eq_nil_iff, List.map_eq_nil_iff]
    exact Nat.digits_ne_nil_iff_ne_zero.mpr (by assumption)

theorem foldl_digits (L : List Nat) : (∀ d ∈ L, d < 10) → ∀ acc : Nat,
    List.foldl (fun a c => a * 10 + charDigitVal c) acc ((L.map digitChar10).reverse)
      = acc * 10 ^ L.length + Nat.ofDigits 10 L := by
  induction L with
  | nil => intro _ acc; simp [Nat.ofDigits_nil]
  | cons d L ih =>
    intro h acc
    simp only [List.map_cons, List.reverse_cons, List.foldl_append, List.foldl_cons,
      List.foldl_nil]
    rw [ih (fun x hx => h x (List.mem_cons_of_mem _ hx)) acc,
      charDigitVal_digitChar10 (h d (List.mem_cons_self _ _)), Nat.ofDigits_cons]
    simp only [List.length_cons, pow_succ]
    ring

theorem renderNat_foldl (m : Nat) :
    List.foldl (fun a c => a * 10 + charDigitVal c) 0 (renderNat m) = m := by
  unfold renderNat
  split
  · rename_i h0
    subst h0
    rfl
  · rw [foldl_digits _ (fun d hd => Nat.digits_lt_base (by norm_num) hd) 0,
      Nat.ofDigits_digits]
    simp

theorem renderNat_no_leading_zero (m : Nat) :
    ¬(1 < (renderNat m).length ∧ (renderNat m).head? = some '0') := by
  rintro ⟨hlen, hhead⟩
  by_cases hm : m = 0
  · subst hm
    simp [renderNat] at hlen
  · rw [show renderNat m = ((Nat.digits 10 m).map digitChar10).reverse from by
      unfold renderNat; rw [if_neg hm]] at hlen hhead
    have hne : Nat.digits 10 m ≠ [] := Nat.digits_ne_nil_iff_ne_zero.mpr hm
    have hlast : (Nat.digits 10 m).getLast? =
        some ((Nat.digits 10 m).getLast hne) := List.getLast?_eq_getLast _ hne
    have hrev : ((Nat.digits 10 m).map digitChar10).reverse.head?
        = ((Nat.digits 10 m).getLast?).map digitChar10 := by
      rw [← List.map_reverse, List.head?_map, List.head?_reverse]
    rw [hrev, hlast] at hhead
    simp only [Option.map_some', Option.some.injEq] at hhead
    have hd10 : (Nat.digits 10 m).getLast hne < 10 :=
      Nat.digits_lt_base (by norm_num) (List.getLast_mem hne)
    exact digitChar10_ne_zero hd10 (Nat.getLast_digit_ne_zero 10 hm) hhead

theorem takeWhile_append_all {p : Char → Bool} {a z : List Char}
    (ha : ∀ c ∈ a, p c = true) (hz : z.takeWhile p = []) :
    (a ++ z).takeWhile p = a := by
  rw [List.takeWhile_append]
  rw [if_pos]
  · rw [hz, List.append_nil]
  · rw [List.takeWhile_eq_self_iff.mpr ha]

theorem numBoundary_spec {z : List Char} (hz : numBoundary z = true) :
    ∀ c, z.head? = some c → c.isDigit = false ∧ c ≠ '.' ∧ c ≠ 'e' ∧ c ≠ 'E' := by
  intro c hc
  cases z with
  | nil => simp at hc
  | cons c0 w =>
    simp only [List.head?_cons, Option.some.injEq] at hc
    subst hc
    simp only [numBoundary, Bool.not_eq_true', Bool.or_eq_false_iff,
      decide_eq_false_iff_not] at hz
    exact ⟨hz.1.1.1, hz.1.1.2, hz.1.2, hz.2⟩

theorem numBoundary_not_digit {z : List Char} (hz : numBoundary z = true) :
    z.takeWhile Char.isDigit = [] := by
  cases z with
  | nil => rfl
  | cons c w =>
    have h := (numBoundary_spec hz c rfl).1
    simp [List.takeWhile_cons, h]

theorem isDigit_not_ws {c : Char} (h : c.isDigit = true) : jsonIsWs c = false := by
  obtain ⟨h1, h2⟩ := isDigit_toNat h
  simp only [jsonIsWs, Bool.or_eq_false_iff, decide_eq_false_iff_not]
  refine ⟨⟨⟨?_, ?_⟩, ?_⟩, ?_⟩ <;> rintro rfl <;> exact absurd h1 (by decide)

theorem renderNat_cons (m : Nat) : ∃ c w, renderNat m = c :: w ∧ c.isDigit = true := by
  cases hh : renderNat m with
  | nil => exact absurd hh (renderNat_ne_nil m)
  | cons a b =>
    refine ⟨a, b, rfl, renderNat_all_digit m a ?_⟩
    rw [hh]
    exact List.mem_cons_self _ _

theorem parseNumber_renderNat (m : Nat) {z : List Char} (hz : numBoundary z = true) :
    parseNumber (renderNat m ++ z) = some (Json.num (m : Int), z) := by
  obtain ⟨c0, w0, hcw, hc0d⟩ := renderNat_cons m
  have hc0 : c0 ≠ '-' := by rintro rfl; exact absurd hc0d (by decide)
  have hhead : ((renderNat m ++ z).head? == some '-') = false := by
    rw [hcw]
    simp [hc0]
  have htake : (renderNat m ++ z).takeWhile Char.isDigit = renderNat m :=
    takeWhile_append_all (renderNat_all_digit m) (numBoundary_not_digit hz)
  have hdrop : (renderNat m ++ z).drop (renderNat m).length = z := List.drop_left _ _
  have hnolead := renderNat_no_leading_zero m
  have hfold := renderNat_foldl m
  have hne := renderNat_ne_nil m
  cases z with
  | nil =>
    unfold parseNumber
    simp only [hhead, Bool.false_eq_true, if_false, htake, hdrop, hne, hnolead, hfold,
      List.head?_nil, if_true, if_neg hnolead, ite_false]
  | cons a w =>
    have ha := numBoundary_spec hz a rfl
    unfold parseNumber
    simp only [hhead, Bool.false_eq_true, if_false, htake, hdrop, hne, hnolead, hfold,
      List.head?_cons, if_neg hnolead, ite_false]
    rw [if_pos]
    simp [ha.2.1, ha.2.2.1, ha.2.2.2]

theorem renderInt_shape (n : Int) :
    ∃ c w, renderInt n = c :: w ∧ (c = '-' ∨ c.isDigit = true) := by
  unfold renderInt
  split
  · exact ⟨'-', renderNat (-n).toNat, rfl, Or.inl rfl⟩
  · obtain ⟨c, w, hcw, hcd⟩ := renderNat_cons n.toNat
    exact ⟨c, w, hcw, Or.inr hcd⟩

theorem parseNumber_renderInt (n : Int) {z : List Char} (hz : numBoundary z = true) :
    parseNumber (renderInt n ++ z) = some (Json.num n, z) := by
  unfold renderInt
  split
  · rename_i hneg
    rw [List.cons_append]
    obtain ⟨c0, w0, hcw, hc0d⟩ := renderNat_cons (-n).toNat
    have htake : (renderNat (-n).toNat ++ z).takeWhile Char.isDigit = renderNat (-n).toNat :=
      takeWhile_append_all (renderNat_all_digit _) (numBoundary_not_digit hz)
    have hdrop : (renderNat (-n).toNat ++ z).drop (renderNat (-n).toNat).length = z :=
      List.drop_left _ _
    have hnolead := renderNat_no_leading_zero (-n).toNat
    have hfold := renderNat_foldl (-n).toNat
    have hne := renderNat_ne_nil (-n).toNat
    have hval : -(((-n).toNat : Nat) : Int) = n := by omega
    cases z with
    | nil =>
      unfold parseNumber
      simp only [List.head?_cons, beq_self_eq_true, if_true, List.tail_cons, htake, hdrop,
        if_neg hne, hnolead, hfold, List.head?_nil, if_neg hnolead, ite_false]
      rw [hval]
    | cons a w =>
      have ha := numBoundary_spec hz a rfl
      unfold parseNumber
      simp only [List.head?_cons, beq_self_eq_true, if_true, List.tail_cons, htake, hdrop,
        if_neg hne, hnolead, hfold, if_neg hnolead, ite_false]
      rw [if_pos]
      rotate_left
      · simp [ha.2.1, ha.2.2.1, ha.2.2.2]
      · rw [hval]
  · rename_i hpos
    rw [parseNumber_renderNat n.toNat hz]
    have hval : ((n.toNat : Nat) : Int) = n := Int.toNat_of_nonneg (by omega)
    rw [hval]

theorem parseValue_quote (fuel : Nat) (rest : List Char) :
    parseValue (fuel + 1) ('"' :: rest)
      = (parseStringBody rest).map (fun r => (Json.str r.1, r.2)) := rfl

theorem parseValue_brace (fuel : Nat) (rest : List Char) :
    parseValue (fuel + 1) ('\x7b' :: rest) = parseObjectBody fuel rest := rfl

theorem parseValue_minus (fuel : Nat) (r : List Char) :
    parseValue (fuel + 1) ('-' :: r) = parseNumber ('-' :: r) := rfl

theorem parseValue_digit {c : Char} (hc : c.isDigit = true) (fuel : Nat) (r : List Char) :
    parseValue (fuel + 1) (c :: r) = parseNumber (c :: r) := by
  rw [parseValue.eq_def]
  split
  · simp_all
  · split <;> simp_all

theorem dropWhile_cons_not_ws {c : Char} (h : jsonIsWs c = false) (w : List Char) :
    (c :: w).dropWhile jsonIsWs = c :: w := by
  simp [List.dropWhile_cons, h]

theorem renderJson_prim_cons {v : Json} (hv : goodPrim v = true) :
    ∃ c w, renderJson v = c :: w ∧ jsonIsWs c = false := by
  cases v with
  | null => exact ⟨'n', ['u', 'l', 'l'], rfl, by decide⟩
  | bool b =>
    cases b with
    | false => exact ⟨'f', ['a', 'l', 's', 'e'], rfl, by decide⟩
    | true => exact ⟨'t', ['r', 'u', 'e'], rfl, by decide⟩
  | num n =>
    obtain ⟨c, w, hcw, hd⟩ := renderInt_shape n
    refine ⟨c, w, hcw, ?_⟩
    rcases hd with rfl | hd
    · decide
    · exact isDigit_not_ws hd
  | str s => exact ⟨'"', s ++ ['"'], rfl, by decide⟩
  | arr xs => simp [goodPrim] at hv
  | obj ms => simp [goodPrim] at hv

theorem dropWhile_render_prim {v : Json} (hv : goodPrim v = true) (T : List Char) :
    (renderJson v ++ T).dropWhile jsonIsWs = renderJson v ++ T := by
  obtain ⟨c, w, hcw, hws⟩ := renderJson_prim_cons hv
  rw [hcw, List.cons_append, dropWhile_cons_not_ws hws]

theorem parseStringBody_render {s : List Char} (hs : ∀ c ∈ s, goodStrChar c = true)
    (z : List Char) :
    parseStringBody (s ++ '"' :: z) = some (s, z) := by
  induction s with
  | nil => rfl
  | cons c s' ih =>
    have ih' := ih (fun d hd => hs d (List.mem_cons_of_mem _ hd))
    obtain ⟨h32, hq, hb, _, _⟩ := goodStrChar_spec (hs c (List.mem_cons_self _ _))
    have hlt : ¬ (c.toNat < 32) := by omega
    rw [List.cons_append, parseStringBody.eq_def]
    split <;> simp_all

theorem parseValue_render_prim {v : Json} (hv : goodPrim v = true) (fuel : Nat)
    {z : List Char} (hz : numBoundary z = true) :
    parseValue (fuel + 1) (renderJson v ++ z) = some (v, z) := by
  cases v with
  | null => rfl
  | bool b => cases b <;> rfl
  | num n =>
    have hmain := parseNumber_renderInt n hz
    obtain ⟨c, w, hcw, hd⟩ := renderInt_shape n
    have hr : renderJson (Json.num n) = renderInt n := rfl
    rw [hr]
    rw [hcw, List.cons_append] at hmain ⊢
    rcases hd with rfl | hd
    · rw [parseValue_minus, hmain]
    · rw [parseValue_digit hd, hmain]
  | str s =>
    have hs : ∀ c ∈ s, goodStrChar c = true := by
      simp only [goodPrim] at hv
      exact fun c hc => List.all_eq_true.mp hv c hc
    show parseValue (fuel + 1) ('"' :: ((s ++ ['"']) ++ z)) = _
    rw [List.append_assoc, List.singleton_append, parseValue_quote,
      parseStringBody_render hs]
    rfl
  | arr xs => simp [goodPrim] at hv
  | obj ms => simp [goodPrim] at hv

theorem numBoundary_membersTail (rs : List (List Char × Json)) (z : List Char) :
    numBoundary (renderMembersTail rs ++ '\x7d' :: z) = true := by
  cases rs with
  | nil => rfl
  | cons kv rs => rfl

theorem dropWhile_ws_comma (x : List Char) :
    List.dropWhile jsonIsWs (',' :: x) = ',' :: x := rfl

theorem dropWhile_ws_space_quote (x : List Char) :
    List.dropWhile jsonIsWs (' ' :: '"' :: x) = '"' :: x := rfl

theorem dropWhile_ws_colon (x : List Char) :
    List.dropWhile jsonIsWs (':' :: x) = ':' :: x := rfl

theorem dropWhile_ws_space (x : List Char) :
    List.dropWhile jsonIsWs (' ' :: x) = List.dropWhile jsonIsWs x := rfl

theorem dropWhile_ws_quote (x : List Char) :
    List.dropWhile jsonIsWs ('"' :: x) = '"' :: x := rfl

theorem parseMembersRest_step (f : Nat) (R r2 T k : List Char) (v : Json)
    (ms : List (List Char × Json)) (z : List Char)
    (h1 : parseStringBody R = some (k, ':' :: r2))
    (h2 : parseValue f (r2.dropWhile jsonIsWs) = some (v, T))
    (h3 : parseMembersRest f T = some (ms, z)) :
    parseMembersRest (f + 1) (',' :: ' ' :: '"' :: R) = some ((k, v) :: ms, z) := by
  rw [parseMembersRest.eq_def]
  simp only [dropWhile_ws_comma, dropWhile_ws_space_quote, h1, dropWhile_ws_colon, h2, h3]

theorem parseObjectBody_step (f : Nat) (R r2 T k : List Char) (v : Json)
    (ms : List (List Char × Json)) (z : List Char)
    (h1 : parseStringBody R = some (k, ':' :: r2))
    (h2 : parseValue f (r2.dropWhile jsonIsWs) = some (v, T))
    (h3 : parseMembersRest f T = some (ms, z)) :
    parseObjectBody (f + 1) ('"' :: R) = some (Json.obj ((k, v) :: ms), z) := by
  rw [parseObjectBody.eq_def]
  simp only [dropWhile_ws_quote, h1, dropWhile_ws_colon, h2, h3]

theorem parseMembersRest_render (rest : List (List Char × Json)) :
    ∀ (fuel : Nat) (z : List Char),
    (∀ kv ∈ rest, kv.1.all goodStrChar = true ∧ goodPrim kv.2 = true) →
    (renderMembersTail rest ++ '\x7d' :: z).length < fuel →
    parseMembersRest fuel (renderMembersTail rest ++ '\x7d' :: z) = some (rest, z) := by
  induction rest with
  | nil =>
    intro fuel z _ hlen
    obtain ⟨f, rfl⟩ : ∃ f, fuel = f + 1 := ⟨fuel - 1, by omega⟩
    rfl
  | cons kv rs ih =>
    obtain ⟨k, v⟩ := kv
    intro fuel z hgood hlen
    obtain ⟨f, rfl⟩ : ∃ f, fuel = f + 1 := ⟨fuel - 1, by omega⟩
    simp only [renderMembersTail, List.length_cons, List.length_append] at hlen
    obtain ⟨f1, rfl⟩ : ∃ f1, f = f1 + 1 := ⟨f - 1, by omega⟩
    have hk : ∀ c ∈ k, goodStrChar c = true := by
      have hall := (hgood (k, v) (List.mem_cons_self _ _)).1
      exact fun c hc => List.all_eq_true.mp hall c hc
    have hv : goodPrim v = true := (hgood (k, v) (List.mem_cons_self _ _)).2
    have hT : numBoundary (renderMembersTail rs ++ '\x7d' :: z) = true :=
      numBoundary_membersTail rs z
    have hR : ((k ++ ('"' :: ':' :: ' ' :: renderJson v)) ++ renderMembersTail rs) ++ '\x7d' :: z
        = k ++ '"' :: (':' :: ' ' :: (renderJson v ++ (renderMembersTail rs ++ '\x7d' :: z))) := by
      simp [List.append_assoc]
    have h1 : parseStringBody
          (((k ++ ('"' :: ':' :: ' ' :: renderJson v)) ++ renderMembersTail rs) ++ '\x7d' :: z)
        = some (k, ':' :: (' ' :: (renderJson v ++ (renderMembersTail rs ++ '\x7d' :: z)))) := by
      rw [hR]
      exact parseStringBody_render hk _
    have h2 : parseValue (f1 + 1)
          ((' ' :: (renderJson v ++ (renderMembersTail rs ++ '\x7d' :: z))).dropWhile jsonIsWs)
        = some (v, renderMembersTail rs ++ '\x7d' :: z) := by
      rw [dropWhile_ws_space, dropWhile_render_prim hv]
      exact parseValue_render_prim hv f1 hT
    have hlen2 : (renderMembersTail rs ++ '\x7d' :: z).length < f1 + 1 := by
      simp only [List.length_cons, List.length_append] at hlen ⊢
      omega
    have h3 : parseMembersRest (f1 + 1) (renderMembersTail rs ++ '\x7d' :: z) = some (rs, z) :=
      ih (f1 + 1) z (fun kv2 hkv => hgood kv2 (List.mem_cons_of_mem _ hkv)) hlen2
    show parseMembersRest ((f1 + 1) + 1)
        (',' :: ' ' :: '"' ::
          (((k ++ ('"' :: ':' :: ' ' :: renderJson v)) ++ renderMembersTail rs) ++ '\x7d' :: z))
      = some ((k, v) :: rs, z)
    exact parseMembersRest_step (f1 + 1) _ _ _ _ _ _ _ h1 h2 h3

theorem parseObjectBody_render (ms : List (List Char × Json)) (fuel : Nat) (z : List Char)
    (hgood : ∀ kv ∈ ms, kv.1.all goodStrChar = true ∧ goodPrim kv.2 = true)
    (hlen : (renderMembers ms ++ '\x7d' :: z).length < fuel) :
    parseObjectBody fuel (renderMembers ms ++ '\x7d' :: z) = some (Json.obj ms, z) := by
  obtain ⟨f, rfl⟩ : ∃ f, fuel = f + 1 := ⟨fuel - 1, by omega⟩
  cases ms with
  | nil => rfl
  | cons kv rs =>
    obtain ⟨k, v⟩ := kv
    simp only [renderMembers, List.length_cons, List.length_append] at hlen
    obtain ⟨f1, rfl⟩ : ∃ f1, f = f1 + 1 := ⟨f - 1, by omega⟩
    have hk : ∀ c ∈ k, goodStrChar c = true := by
      have hall := (hgood (k, v) (List.mem_cons_self _ _)).1
      exact fun c hc => List.all_eq_true.mp hall c hc
    have hv : goodPrim v = true := (hgood (k, v) (List.mem_cons_self _ _)).2
    have hT : numBoundary (renderMembersTail rs ++ '\x7d' :: z) = true :=
      numBoundary_membersTail rs z
    have hR : ((k ++ ('"' :: ':' :: ' ' :: renderJson v)) ++ renderMembersTail rs) ++ '\x7d' :: z
        = k ++ '"' :: (':' :: ' ' :: (renderJson v ++ (renderMembersTail rs ++ '\x7d' :: z))) := by
      simp [List.append_assoc]
    have h1 : parseStringBody
          (((k ++ ('"' :: ':' :: ' ' :: renderJson v)) ++ renderMembersTail rs) ++ '\x7d' :: z)
        = some (k, ':' :: (' ' :: (renderJson v ++ (renderMembersTail rs ++ '\x7d' :: z)))) := by
      rw [hR]
      exact parseStringBody_render hk _
    have h2 : parseValue (f1 + 1)
          ((' ' :: (renderJson v ++ (renderMembersTail rs ++ '\x7d' :: z))).dropWhile jsonIsWs)
        = some (v, renderMembersTail rs ++ '\x7d' :: z) := by
      rw [dropWhile_ws_space, dropWhile_render_prim hv]
      exact parseValue_render_prim hv f1 hT
    have hlen2 : (renderMembersTail rs ++ '\x7d' :: z).length < f1 + 1 := by
      simp only [List.length_cons, List.length_append] at hlen ⊢
      omega
    have h3 : parseMembersRest (f1 + 1) (renderMembersTail rs ++ '\x7d' :: z) = some (rs, z) :=
      parseMembersRest_render rs (f1 + 1) z
        (fun kv2 hkv => hgood kv2 (List.mem_cons_of_mem _ hkv)) hlen2
    show parseObjectBody ((f1 + 1) + 1)
        ('"' ::
          (((k ++ ('"' :: ':' :: ' ' :: renderJson v)) ++ renderMembersTail rs) ++ '\x7d' :: z))
      = some (Json.obj ((k, v) :: rs), z)
    exact parseObjectBody_step (f1 + 1) _ _ _ _ _ _ _ h1 h2 h3

theorem jsonLoads_renderJson {j : Json} (hj : goodArgs j = true) :
    jsonLoads (renderJson j) = some j := by
  cases j with
  | null => simp [goodArgs] at hj
  | bool b => simp [goodArgs] at hj
  | num n => simp [goodArgs] at hj
  | str s => simp [goodArgs] at hj
  | arr xs => simp [goodArgs] at hj
  | obj ms =>
    have hgood : ∀ kv ∈ ms, kv.1.all goodStrChar = true ∧ goodPrim kv.2 = true := by
      simp only [goodArgs, Bool.and_eq_true] at hj
      intro kv hkv
      have hkv2 := List.all_eq_true.mp hj.1 kv hkv
      simp only [Bool.and_eq_true] at hkv2
      exact hkv2
    show jsonLoads ('\x7b' :: (renderMembers ms ++ ['\x7d'])) = some (Json.obj ms)
    unfold jsonLoads
    rw [show ('\x7b' :: (renderMembers ms ++ ['\x7d'])).dropWhile jsonIsWs
        = '\x7b' :: (renderMembers ms ++ ['\x7d']) from rfl]
    rw [show ('\x7b' :: (renderMembers ms ++ ['\x7d'])).length
        = (renderMembers ms ++ ['\x7d']).length + 1 from by simp]
    rw [parseValue_brace]
    rw [parseObjectBody_render ms ((renderMembers ms ++ ['\x7d']).length + 1) [] hgood
      (by omega)]
    rfl

theorem digit_safe {c : Char} (h : c.isDigit = true) : c ≠ '\x7d' ∧ c ≠ '[' := by
  constructor <;> rintro rfl <;> exact absurd h (by decide)

theorem renderInt_safe (n : Int) : ∀ c ∈ renderInt n, c ≠ '\x7d' ∧ c ≠ '[' := by
  intro c hc
  unfold renderInt at hc
  split at hc
  · rcases List.mem_cons.mp hc with h | h
    · subst h
      exact ⟨by decide, by decide⟩
    · exact digit_safe (renderNat_all_digit _ _ h)
  · exact digit_safe (renderNat_all_digit _ _ hc)

theorem renderJson_prim_safe {v : Json} (hv : goodPrim v = true) :
    ∀ c ∈ renderJson v, c ≠ '\x7d' ∧ c ≠ '[' := by
  intro c hc
  cases v with
  | null => constructor <;> rintro rfl <;> exact absurd hc (by decide)
  | bool b => cases b <;> (constructor <;> rintro rfl <;> exact absurd hc (by decide))
  | num n => exact renderInt_safe n c hc
  | str s =>
    have hall : ∀ ch ∈ s, goodStrChar ch = true := by
      simp only [goodPrim] at hv
      exact fun ch hch => List.all_eq_true.mp hv ch hch
    rcases List.mem_cons.mp hc with h | h
    · subst h
      exact ⟨by decide, by decide⟩
    rcases List.mem_append.mp h with h2 | h2
    · have hs := goodStrChar_spec (hall c h2)
      exact ⟨hs.2.2.2.1, hs.2.2.2.2⟩
    rcases List.mem_cons.mp h2 with h3 | h3
    · subst h3
      exact ⟨by decide, by decide⟩
    · exact absurd h3 (List.not_mem_nil c)
  | arr xs => simp [goodPrim] at hv
  | obj ms => simp [goodPrim] at hv

theorem member_text_safe {k : List Char} {v : Json}
    (hk : ∀ ch ∈ k, goodStrChar ch = true) (hv : goodPrim v = true) :
    ∀ c ∈ '"' :: (k ++ '"' :: ':' :: ' ' :: renderJson v), c ≠ '\x7d' ∧ c ≠ '[' := by
  intro c hc
  rcases List.mem_cons.mp hc with h | hc
  · subst h
    exact ⟨by decide, by decide⟩
  rcases List.mem_append.mp hc with h | hc
  · have hs := goodStrChar_spec (hk c h)
    exact ⟨hs.2.2.2.1, hs.2.2.2.2⟩
  rcases List.mem_cons.mp hc with h | hc
  · subst h
    exact ⟨by decide, by decide⟩
  rcases List.mem_cons.mp hc with h | hc
  · subst h
    exact ⟨by decide, by decide⟩
  rcases List.mem_cons.mp hc with h | hc
  · subst h
    exact ⟨by decide, by decide⟩
  exact renderJson_prim_safe hv c hc

theorem renderMembersTail_safe :
    ∀ (rs : List (List Char × Json)),
      (∀ kv ∈ rs, kv.1.all goodStrChar = true ∧ goodPrim kv.2 = true) →
      ∀ c ∈ renderMembersTail rs, c ≠ '\x7d' ∧ c ≠ '[' := by
  intro rs
  induction rs with
  | nil =>
    intro _ c hc
    exact absurd hc (List.not_mem_nil c)
  | cons kv rs ih =>
    intro hgood c hc
    obtain ⟨k, v⟩ := kv
    have hk : ∀ ch ∈ k, goodStrChar ch = true := fun ch hch =>
      List.all_eq_true.mp (hgood (k, v) (List.mem_cons_self _ _)).1 ch hch
    have hv := (hgood (k, v) (List.mem_cons_self _ _)).2
    rcases List.mem_cons.mp hc with h | hc
    · subst h
      exact ⟨by decide, by decide⟩
    rcases List.mem_cons.mp hc with h | hc
    · subst h
      exact ⟨by decide, by decide⟩
    rcases List.mem_append.mp hc with h | hc
    · exact member_text_safe hk hv c h
    · exact ih (fun kv2 hkv => hgood kv2 (List.mem_cons_of_mem _ hkv)) c hc

theorem renderMembers_safe {ms : List (List Char × Json)}
    (hgood : ∀ kv ∈ ms, kv.1.all goodStrChar = true ∧ goodPrim kv.2 = true) :
    ∀ c ∈ renderMembers ms, c ≠ '\x7d' ∧ c ≠ '[' := by
  intro c hc
  cases ms with
  | nil => exact absurd hc (List.not_mem_nil c)
  | cons kv rs =>
    obtain ⟨k, v⟩ := kv
    have hk : ∀ ch ∈ k, goodStrChar ch = true := fun ch hch =>
      List.all_eq_true.mp (hgood (k, v) (List.mem_cons_self _ _)).1 ch hch
    have hv := (hgood (k, v) (List.mem_cons_self _ _)).2
    rcases List.mem_append.mp hc with h | h
    · exact member_text_safe hk hv c h
    · exact renderMembersTail_safe rs
        (fun kv2 hkv => hgood kv2 (List.mem_cons_of_mem _ hkv)) c h

theorem goodCall_block {c : ToolCall} (hc : goodCall c = true) :
    ∃ ms, c.arguments = Json.obj ms
      ∧ (∀ kv ∈ ms, kv.1.all goodStrChar = true ∧ goodPrim kv.2 = true)
      ∧ c.tool_name ≠ []
      ∧ (∀ ch ∈ c.tool_name, pyIsSpace ch = false)
      ∧ '[' ∉ c.tool_name
      ∧ jsonLoads ('\x7b' :: (renderMembers ms ++ ['\x7d'])) = some (Json.obj ms) := by
  simp only [goodCall, Bool.and_eq_true, Bool.not_eq_true'] at hc
  obtain ⟨⟨hemp, hallname⟩, hargs⟩ := hc
  obtain ⟨ms, hms⟩ : ∃ ms, c.arguments = Json.obj ms := by
    cases harg : c.arguments with
    | null => rw [harg] at hargs; simp [goodArgs] at hargs
    | bool b => rw [harg] at hargs; simp [goodArgs] at hargs
    | num n => rw [harg] at hargs; simp [goodArgs] at hargs
    | str s => rw [harg] at hargs; simp [goodArgs] at hargs
    | arr xs => rw [harg] at hargs; simp [goodArgs] at hargs
    | obj ms => exact ⟨ms, rfl⟩
  rw [hms] at hargs
  simp only [goodArgs, Bool.and_eq_true] at hargs
  obtain ⟨hall, hdk⟩ := hargs
  refine ⟨ms, hms, ?_, ?_, ?_, ?_, ?_⟩
  · intro kv hkv
    have h2 := List.all_eq_true.mp hall kv hkv
    simp only [Bool.and_eq_true] at h2
    exact h2
  · intro hn
    rw [hn] at hemp
    exact absurd hemp (by decide)
  · exact fun ch hch => (goodNameChar_spec (List.all_eq_true.mp hallname ch hch)).1
  · intro hbr
    exact (goodNameChar_spec (List.all_eq_true.mp hallname '[' hbr)).2 rfl
  · have hr : renderJson (Json.obj ms) = '\x7b' :: (renderMembers ms ++ ['\x7d']) := rfl
    rw [← hr]
    exact jsonLoads_renderJson (by simp only [goodArgs, Bool.and_eq_true]; exact ⟨hall, hdk⟩)

theorem extract_block_cons (nm mid z : List Char) (args : Json)
    (hnm : nm ≠ []) (hws : ∀ c ∈ nm, pyIsSpace c = false) (hmid : '\x7d' ∉ mid)
    (hload : jsonLoads ('\x7b' :: (mid ++ ['\x7d'])) = some args) :
    extract_tool_calls (toolBlock nm ('\x7b' :: (mid ++ ['\x7d'])) ++ z)
      = ⟨pyStrip nm, args⟩ :: extract_tool_calls z := by
  have hhas : hasSub marker (toolBlock nm ('\x7b' :: (mid ++ ['\x7d'])) ++ z) = true := by
    rw [show toolBlock nm ('\x7b' :: (mid ++ ['\x7d'])) ++ z
        = marker ++ (' ' :: (nm ++ '\n' :: (('\x7b' :: (mid ++ ['\x7d'])) ++ '\n' :: z)))
      from by simp [toolBlock]]
    exact hasSub_self_append _
  have hscan := scanToolBlocks_block nm mid z hnm hws hmid
  unfold extract_tool_calls
  rw [if_pos hhas, hscan, List.filterMap_cons]
  simp only [hload]
  by_cases hz : hasSub marker z = true
  · rw [if_pos hz]
  · have hzf : hasSub marker z = false := by
      revert hz
      cases hasSub marker z <;> simp
    rw [if_neg hz, scanToolBlocks_no_marker z hzf]
    rfl

theorem extract_block_drop (nm mid z : List Char)
    (hnm : nm ≠ []) (hws : ∀ c ∈ nm, pyIsSpace c = false) (hmid : '\x7d' ∉ mid)
    (hnone : jsonLoads ('\x7b' :: (mid ++ ['\x7d'])) = none) :
    extract_tool_calls (toolBlock nm ('\x7b' :: (mid ++ ['\x7d'])) ++ z)
      = extract_tool_calls z := by
  have hhas : hasSub marker (toolBlock nm ('\x7b' :: (mid ++ ['\x7d'])) ++ z) = true := by
    rw [show toolBlock nm ('\x7b' :: (mid ++ ['\x7d'])) ++ z
        = marker ++ (' ' :: (nm ++ '\n' :: (('\x7b' :: (mid ++ ['\x7d'])) ++ '\n' :: z)))
      from by simp [toolBlock]]
    exact hasSub_self_append _
  have hscan := scanToolBlocks_block nm mid z hnm hws hmid
  unfold extract_tool_calls
  rw [if_pos hhas, hscan, List.filterMap_cons]
  simp only [hnone]
  by_cases hz : hasSub marker z = true
  · rw [if_pos hz]
  · have hzf : hasSub marker z = false := by
      revert hz
      cases hasSub marker z <;> simp
    rw [if_neg hz, scanToolBlocks_no_marker z hzf]
    rfl

theorem serializeCall_good {c : ToolCall} {ms : List (List Char × Json)}
    (hms : c.arguments = Json.obj ms) :
    serializeCall c = toolBlock c.tool_name ('\x7b' :: (renderMembers ms ++ ['\x7d'])) := by
  rw [show serializeCall c = toolBlock c.tool_name (renderJson c.arguments) from rfl, hms]
  rfl

theorem extract_blocks_append (cs : List ToolCall) (z : List Char)
    (h : ∀ c ∈ cs, goodCall c = true) :
    extract_tool_calls (serializeCalls cs ++ z) = cs ++ extract_tool_calls z := by
  induction cs with
  | nil => rfl
  | cons c cs' ih =>
    obtain ⟨ms, hms, hgood, hnm, hws, hbr, hload⟩ :=
      goodCall_block (h c (List.mem_cons_self _ _))
    have hmid : '\x7d' ∉ renderMembers ms := fun hx =>
      (renderMembers_safe hgood '\x7d' hx).1 rfl
    have hser : serializeCalls (c :: cs') ++ z
        = toolBlock c.tool_name ('\x7b' :: (renderMembers ms ++ ['\x7d']))
            ++ (serializeCalls cs' ++ z) := by
      show (serializeCall c ++ serializeCalls cs') ++ z = _
      rw [List.append_assoc, serializeCall_good hms]
    rw [hser, extract_block_cons _ _ _ _ hnm hws hmid hload, pyStrip_of_no_ws hws,
      ih (fun x hx => h x (List.mem_cons_of_mem _ hx)), ← hms]
    rfl

/-- C2 counterexample: a single marker block whose JSON argument object
contains a nested object is not recovered at all: the lazily captured group
`\x7b.*?\x7d` of the pattern stops at the first closing brace, so the captured
text is a truncated, invalid JSON fragment and the invocation is dropped,
refuting the claim for well-formed pairs with nested objects. -/
theorem extract_nested_object_counterexample :
    extract_tool_calls
        (serializeCalls [⟨"a".toList, Json.obj [("x".toList, Json.obj [])]⟩]) = []
      ∧ extract_tool_calls
          (serializeCalls [⟨"a".toList, Json.obj [("x".toList, Json.obj [])]⟩])
        ≠ [⟨"a".toList, Json.obj [("x".toList, Json.obj [])]⟩] := by
  have h1 : extract_tool_calls
      (serializeCalls [⟨"a".toList, Json.obj [("x".toList, Json.obj [])]⟩]) = [] := rfl
  refine ⟨h1, ?_⟩
  rw [h1]
  intro hcon
  exact List.cons_ne_nil _ _ hcon.symm

/-- C2 (amended): for invocation lists whose argument objects are flat — keys
and string values drawn from printable characters other than quote, backslash,
closing brace and opening bracket, values primitive (null, booleans, integers,
such strings), keys distinct, and tool names nonempty without whitespace or
opening bracket — serializing into the marker syntax and parsing with
`ToolParser.extract_tool_calls` recovers exactly the same invocations, in
document order, each with the correct tool name and the exact argument
object.  (With nested objects the round trip fails; see the counterexample.) -/
theorem extract_serialize_roundtrip (cs : List ToolCall)
    (h : ∀ c ∈ cs, goodCall c = true) :
    extract_tool_calls (serializeCalls cs) = cs := by
  have h2 := extract_blocks_append cs [] h
  rw [List.append_nil, show extract_tool_calls ([] : List Char) = [] from rfl,
    List.append_nil] at h2
  exact h2

theorem extract_serialize_roundtrip_witness :
    extract_tool_calls (serializeCalls
        [⟨"echo".toList, Json.obj [("msg".toList, Json.str "hi".toList)]⟩,
         ⟨"sum".toList, Json.obj [("n".toList, Json.num (-3))]⟩])
      = [⟨"echo".toList, Json.obj [("msg".toList, Json.str "hi".toList)]⟩,
         ⟨"sum".toList, Json.obj [("n".toList, Json.num (-3))]⟩] :=
  extract_serialize_roundtrip _ (by decide)

theorem countMarkers_cons (c : Char) (rest : List Char) :
    countMarkers (c :: rest)
      = (if marker.isPrefixOf (c :: rest) then 1 else 0) + countMarkers rest := rfl

theorem countMarkers_append_safe {a : List Char} (ha : '[' ∉ a) (z : List Char) :
    countMarkers (a ++ z) = countMarkers z := by
  induction a with
  | nil => rfl
  | cons c a' ih =>
    have hne : '[' ≠ c := fun he => ha (List.mem_cons.mpr (Or.inl he))
    have hpf : marker.isPrefixOf (c :: (a' ++ z)) = false := by
      show (('[' == c) && ("TOOL]".toList.isPrefixOf (a' ++ z))) = false
      rw [beq_eq_false_iff_ne.mpr hne]
      rfl
    show (if marker.isPrefixOf (c :: (a' ++ z)) then 1 else 0) + countMarkers (a' ++ z)
      = countMarkers z
    rw [hpf, ih (fun hm => ha (List.mem_cons_of_mem _ hm))]
    simp

theorem countMarkers_block (nm a z : List Char) (hnm : '[' ∉ nm) (ha : '[' ∉ a) :
    countMarkers (toolBlock nm a ++ z) = 1 + countMarkers z := by
  have hsafe : '[' ∉ (' ' :: (nm ++ '\n' :: (a ++ ['\n']))) := by
    intro hmem
    rcases List.mem_cons.mp hmem with h | hmem
    · exact absurd h (by decide)
    rcases List.mem_append.mp hmem with h | hmem
    · exact hnm h
    rcases List.mem_cons.mp hmem with h | hmem
    · exact absurd h (by decide)
    rcases List.mem_append.mp hmem with h | h
    · exact ha h
    rcases List.mem_cons.mp h with h2 | h2
    · exact absurd h2 (by decide)
    · exact absurd h2 (List.not_mem_nil _)
  have hshape : toolBlock nm a ++ z
      = '[' :: ("TOOL]".toList ++ ((' ' :: (nm ++ '\n' :: (a ++ ['\n']))) ++ z)) := by
    simp [toolBlock, marker]
  rw [hshape, countMarkers_cons]
  have hpf : marker.isPrefixOf
      ('[' :: ("TOOL]".toList ++ ((' ' :: (nm ++ '\n' :: (a ++ ['\n']))) ++ z))) = true :=
    List.isPrefixOf_iff_prefix.mpr ⟨(' ' :: (nm ++ '\n' :: (a ++ ['\n']))) ++ z, rfl⟩
  rw [if_pos hpf, countMarkers_append_safe (by decide), countMarkers_append_safe hsafe]

theorem countMarkers_serializeCalls (cs : List ToolCall) (z : List Char)
    (h : ∀ c ∈ cs, goodCall c = true) :
    countMarkers (serializeCalls cs ++ z) = cs.length + countMarkers z := by
  induction cs with
  | nil => simp [serializeCalls]
  | cons c cs' ih =>
    obtain ⟨ms, hms, hgood, hnm, hws, hbr, hload⟩ :=
      goodCall_block (h c (List.mem_cons_self _ _))
    have hargsafe : '[' ∉ '\x7b' :: (renderMembers ms ++ ['\x7d']) := by
      intro hmem
      rcases List.mem_cons.mp hmem with hx | hmem
      · exact absurd hx (by decide)
      rcases List.mem_append.mp hmem with hx | hx
      · exact (renderMembers_safe hgood '[' hx).2 rfl
      rcases List.mem_cons.mp hx with h2 | h2
      · exact absurd h2 (by decide)
      · exact absurd h2 (List.not_mem_nil _)
    have hser : serializeCalls (c :: cs') ++ z
        = toolBlock c.tool_name ('\x7b' :: (renderMembers ms ++ ['\x7d']))
            ++ (serializeCalls cs' ++ z) := by
      show (serializeCall c ++ serializeCalls cs') ++ z = _
      rw [List.append_assoc, serializeCall_good hms]
    rw [hser, countMarkers_block _ _ _ hbr hargsafe,
      ih (fun x hx => h x (List.mem_cons_of_mem _ hx))]
    simp only [List.length_cons]
    omega

/-- C7 counterexample: a marker block whose JSON is an unterminated brace
fragment swallows the following well-formed block: the lazy group runs to the
first closing brace, which lies inside the next block, so both invocations are
lost even though the second block alone parses cleanly.  A failed parse can
therefore abort parsing of a subsequent well-formed occurrence, refuting the
independence part of the claim. -/
theorem extract_swallowed_block_counterexample :
    extract_tool_calls (("[TOOL] bad\n".toList ++ ('\x7b' :: "oops\n".toList))
        ++ serializeCalls [⟨"good".toList, Json.obj []⟩]) = []
      ∧ extract_tool_calls (serializeCalls [⟨"good".toList, Json.obj []⟩])
        = [⟨"good".toList, Json.obj []⟩] :=
  ⟨rfl, rfl⟩

/-- C7 (amended): when the invalid JSON is a properly brace-delimited block
(its body has no internal closing brace, so the lazily captured group is the
block itself), the failed parse drops only that invocation: the extraction of
a text made of flat well-formed blocks around one such invalid block yields
exactly the surrounding invocations, strictly fewer than the marker
occurrences, and the parse is total (the model raises no exception).  An
unterminated invalid block can instead swallow the following block; see the
counterexample. -/
theorem extract_invalid_json_block (pre post : List ToolCall) (bn bmid : List Char)
    (hpre : ∀ c ∈ pre, goodCall c = true) (hpost : ∀ c ∈ post, goodCall c = true)
    (hbn : bn ≠ []) (hbw : ∀ c ∈ bn, pyIsSpace c = false) (hbnb : '[' ∉ bn)
    (hbm : '\x7d' ∉ bmid) (hbb : '[' ∉ bmid)
    (hbad : jsonLoads ('\x7b' :: (bmid ++ ['\x7d'])) = none) :
    extract_tool_calls (serializeCalls pre
        ++ (toolBlock bn ('\x7b' :: (bmid ++ ['\x7d'])) ++ serializeCalls post))
      = pre ++ post
    ∧ (extract_tool_calls (serializeCalls pre
        ++ (toolBlock bn ('\x7b' :: (bmid ++ ['\x7d'])) ++ serializeCalls post))).length
      < countMarkers (serializeCalls pre
        ++ (toolBlock bn ('\x7b' :: (bmid ++ ['\x7d'])) ++ serializeCalls post)) := by
  have hpost0 : extract_tool_calls (serializeCalls post) = post := by
    have h2 := extract_blocks_append post [] hpost
    rw [List.append_nil, show extract_tool_calls ([] : List Char) = [] from rfl,
      List.append_nil] at h2
    exact h2
  have hx : extract_tool_calls (serializeCalls pre
      ++ (toolBlock bn ('\x7b' :: (bmid ++ ['\x7d'])) ++ serializeCalls post))
      = pre ++ post := by
    rw [extract_blocks_append pre _ hpre,
      extract_block_drop bn bmid _ hbn hbw hbm hbad, hpost0]
  refine ⟨hx, ?_⟩
  rw [hx]
  have hbargsafe : '[' ∉ '\x7b' :: (bmid ++ ['\x7d']) := by
    intro hmem
    rcases List.mem_cons.mp hmem with h | hmem
    · exact absurd h (by decide)
    rcases List.mem_append.mp hmem with h | h
    · exact hbb h
    rcases List.mem_cons.mp h with h2 | h2
    · exact absurd h2 (by decide)
    · exact absurd h2 (List.not_mem_nil _)
  have hc1 : countMarkers (serializeCalls post) = post.length := by
    have h3 := countMarkers_serializeCalls post [] hpost
    rw [List.append_nil] at h3
    simpa using h3
  rw [countMarkers_serializeCalls pre _ hpre,
    countMarkers_block _ _ _ hbnb hbargsafe, hc1]
  simp only [List.length_append]
  omega

theorem extract_invalid_json_block_witness :
    extract_tool_calls (serializeCalls [⟨"a".toList, Json.obj []⟩]
        ++ (toolBlock "bad".toList ('\x7b' :: ("oops".toList ++ ['\x7d']))
          ++ serializeCalls [⟨"b".toList, Json.obj []⟩]))
      = [⟨"a".toList, Json.obj []⟩] ++ [⟨"b".toList, Json.obj []⟩] :=
  (extract_invalid_json_block [⟨"a".toList, Json.obj []⟩] [⟨"b".toList, Json.obj []⟩]
    "bad".toList "oops".toList (by decide) (by decide) (by decide) (by decide)
    (by decide) (by decide) (by decide) rfl).1

end MCPBot
